import Mathlib

/-!
Verification development for the `ctx-tui` file-selection TUI.

The Go program (`src/main.go`) maintains an in-memory tree of filesystem
nodes with lazy loading, cascading selection, change-driven reloads and a
pruned-tree serializer.  This file embeds those operations as Lean
functions and proves the specification's claims about them.

Modelling conventions:
* the Go `node` struct becomes the inductive `Node`; the `parent`
  back-pointer is omitted because none of the embedded operations read it
  (it exists in Go only for navigation and is never used by
  `toggleSelect`, `loadChildren`, `flatten`, `findNode` or the
  serializer);
* filesystem access (`os.ReadDir`, `os.ReadFile`) is passed in as an
  explicit oracle function returning `Option`, mirroring Go's
  `(value, err)` results;
* in-place pointer mutation of a node inside the tree is rendered as
  replacement of the subtree carrying that node's path (`applyAt` /
  `applyAtLoaded`), which coincides with pointer mutation whenever paths
  are unique in the tree (the spec's stated invariant);
* `filepath.Dir`, `filepath.Base` and `filepath.Join` are modelled for
  the clean, absolute paths the program actually constructs.
-/

namespace CtxTui

/-- Embeds the Go struct `node` (src/main.go): `path`, `isDir`,
`expanded`, `selected`, `childrenLoaded`, `children`.  The `parent`
back-reference is dropped (never read by the embedded operations). -/
inductive Node : Type where
  | mk (path : String) (isDir expanded selected childrenLoaded : Bool)
      (children : List Node) : Node

def Node.path : Node → String
  | .mk p _ _ _ _ _ => p

def Node.isDir : Node → Bool
  | .mk _ d _ _ _ _ => d

def Node.expanded : Node → Bool
  | .mk _ _ e _ _ _ => e

def Node.selected : Node → Bool
  | .mk _ _ _ s _ _ => s

def Node.childrenLoaded : Node → Bool
  | .mk _ _ _ _ l _ => l

def Node.children : Node → List Node
  | .mk _ _ _ _ _ cs => cs

@[simp] theorem Node.path_mk (p : String) (d e s l : Bool) (cs : List Node) :
    (Node.mk p d e s l cs).path = p := rfl

@[simp] theorem Node.isDir_mk (p : String) (d e s l : Bool) (cs : List Node) :
    (Node.mk p d e s l cs).isDir = d := rfl

@[simp] theorem Node.expanded_mk (p : String) (d e s l : Bool) (cs : List Node) :
    (Node.mk p d e s l cs).expanded = e := rfl

@[simp] theorem Node.selected_mk (p : String) (d e s l : Bool) (cs : List Node) :
    (Node.mk p d e s l cs).selected = s := rfl

@[simp] theorem Node.childrenLoaded_mk (p : String) (d e s l : Bool) (cs : List Node) :
    (Node.mk p d e s l cs).childrenLoaded = l := rfl

@[simp] theorem Node.children_mk (p : String) (d e s l : Bool) (cs : List Node) :
    (Node.mk p d e s l cs).children = cs := rfl

theorem Node.eta (n : Node) :
    Node.mk n.path n.isDir n.expanded n.selected n.childrenLoaded n.children = n := by
  cases n; rfl

/-- Structural induction principle for `Node` exposing the children as a
list: to prove `P` for every node it suffices to prove it for a node
assuming it for all direct children. -/
theorem Node.recOn' {P : Node → Prop}
    (h : ∀ (p : String) (d e s l : Bool) (cs : List Node),
      (∀ c ∈ cs, P c) → P (Node.mk p d e s l cs)) :
    ∀ n, P n
  | .mk p d e s l cs => h p d e s l cs (fun c hc => Node.recOn' h c)
termination_by n => sizeOf n
decreasing_by
  simp only [Node.mk.sizeOf_spec]
  have := List.sizeOf_lt_of_mem hc
  omega

mutual

/-- Boolean structural equality on nodes. -/
def Node.beq : Node → Node → Bool
  | .mk p d e s l cs, .mk p' d' e' s' l' cs' =>
    p == p' && d == d' && e == e' && s == s' && l == l' && Node.beqList cs cs'

/-- Boolean structural equality on children lists. -/
def Node.beqList : List Node → List Node → Bool
  | [], [] => true
  | c :: cs, c' :: cs' => Node.beq c c' && Node.beqList cs cs'
  | _, _ => false

end

theorem Node.beqList_iff : ∀ (cs : List Node),
    (∀ c ∈ cs, ∀ m, (Node.beq c m = true ↔ c = m)) →
    ∀ cs', (Node.beqList cs cs' = true ↔ cs = cs')
  | [], _, [] => by simp [Node.beqList]
  | [], _, _ :: _ => by simp [Node.beqList]
  | _ :: _, _, [] => by simp [Node.beqList]
  | c :: cs, ih, c' :: cs' => by
    simp only [Node.beqList, Bool.and_eq_true]
    rw [ih c (by simp) c', Node.beqList_iff cs (fun x hx => ih x (by simp [hx])) cs']
    simp

theorem Node.beq_iff (n : Node) : ∀ m, (Node.beq n m = true ↔ n = m) := by
  induction n using Node.recOn' with
  | h p d e s l cs ih =>
    intro m
    cases m with
    | mk p' d' e' s' l' cs' =>
      simp only [Node.beq, Bool.and_eq_true, beq_iff_eq, Node.mk.injEq]
      rw [Node.beqList_iff cs ih cs']
      tauto

instance : DecidableEq Node := fun n m =>
  decidable_of_iff (Node.beq n m = true) (Node.beq_iff n m)

mutual

/-- All materialized nodes of a subtree, in depth-first pre-order
(the node itself first, then the subtrees of its children in order). -/
def Node.allNodes : Node → List Node
  | .mk p d e s l cs => .mk p d e s l cs :: Node.allNodesList cs

/-- `allNodes` of each member of a children list, concatenated. -/
def Node.allNodesList : List Node → List Node
  | [] => []
  | c :: cs => c.allNodes ++ Node.allNodesList cs

end

@[simp] theorem Node.allNodes_mk (p : String) (d e s l : Bool) (cs : List Node) :
    (Node.mk p d e s l cs).allNodes = .mk p d e s l cs :: Node.allNodesList cs := by
  rw [Node.allNodes]

@[simp] theorem Node.allNodesList_nil : Node.allNodesList [] = [] := by
  rw [Node.allNodesList]

@[simp] theorem Node.allNodesList_cons (c : Node) (cs : List Node) :
    Node.allNodesList (c :: cs) = c.allNodes ++ Node.allNodesList cs := by
  rw [Node.allNodesList]

/-- Paths of all materialized nodes of a subtree. -/
def Node.allPaths (n : Node) : List String := n.allNodes.map Node.path

/-! ### Selection engine (src/main.go, `toggleSelect`) -/

mutual

/-- Embeds Go `(n *node) toggleSelect(on bool)`: sets `selected = v` on
the node and, when the node is a directory, recursively on every child. -/
def Node.toggleSelect (v : Bool) : Node → Node
  | .mk p d e _ l cs =>
    .mk p d e v l (if d then Node.toggleSelectList v cs else cs)

/-- `toggleSelect` applied to each member of a children list. -/
def Node.toggleSelectList (v : Bool) : List Node → List Node
  | [] => []
  | c :: cs => c.toggleSelect v :: Node.toggleSelectList v cs

end

/-! ### Lazy directory loader (src/main.go, `loadChildren`) -/

/-- Directory-listing oracle standing for `os.ReadDir`: for a path it
returns `some entries` (pairs of entry name and `IsDir()`, in disk
order) or `none` when the read fails. -/
def DirFS : Type := String → Option (List (String × Bool))

/-- Models `filepath.Join` for the clean, non-empty path segments the
program constructs. -/
def joinPath (a b : String) : String := a ++ "/" ++ b

/-- Embeds Go `loadChildren(n, watcher)`: on a successful directory read
it replaces `n.children` with freshly constructed child nodes (only
`path`, `isDir` set; Go zero values elsewhere) and sets
`childrenLoaded = true`; on a read error it returns the node unchanged
(the Go function returns early, reporting nothing).  The
`watcher.Add` registration is an external side effect, not modelled. -/
def loadChildren (fs : DirFS) (n : Node) : Node :=
  match fs n.path with
  | none => n
  | some entries =>
    Node.mk n.path n.isDir n.expanded n.selected true
      (entries.map (fun en => Node.mk (joinPath n.path en.1) en.2 false false false []))

/-! ### Node lookup -/

mutual

/-- Unguarded depth-first first-match lookup by path.  This is the
functional rendering of dereferencing a Go pointer to the tree node with
that (unique) path. -/
def Node.find? : Node → String → Option Node
  | .mk p d e s l cs, q =>
    if p = q then some (.mk p d e s l cs) else Node.findList cs q

/-- First-match lookup over a children list. -/
def Node.findList : List Node → String → Option Node
  | [], _ => none
  | c :: cs, q =>
    match c.find? q with
    | some r => some r
    | none => Node.findList cs q

end

mutual

/-- Embeds Go `findNode(n, path)`: depth-first first match, but descends
into children only when `childrenLoaded` is set. -/
def findNode : Node → String → Option Node
  | .mk p d e s l cs, q =>
    if p = q then some (.mk p d e s l cs)
    else if l then findNodeList cs q else none

/-- `findNode` over a children list, first match wins. -/
def findNodeList : List Node → String → Option Node
  | [], _ => none
  | c :: cs, q =>
    match findNode c q with
    | some r => some r
    | none => findNodeList cs q

end

/-! ### In-place mutation, rendered functionally -/

mutual

/-- Replaces every subtree whose root path is `q` by its image under
`f`.  With unique paths this is exactly the Go in-place mutation of the
node found at `q`. -/
def applyAt (q : String) (f : Node → Node) : Node → Node
  | .mk p d e s l cs =>
    if p = q then f (.mk p d e s l cs)
    else .mk p d e s l (applyAtList q f cs)

/-- `applyAt` over a children list. -/
def applyAtList (q : String) (f : Node → Node) : List Node → List Node
  | [] => []
  | c :: cs => applyAt q f c :: applyAtList q f cs

end

mutual

/-- Like `applyAt`, but descends only into loaded children; this mirrors
mutation of the node located by `findNode` (the change-event router). -/
def applyAtLoaded (q : String) (f : Node → Node) : Node → Node
  | .mk p d e s l cs =>
    if p = q then f (.mk p d e s l cs)
    else if l then .mk p d e s l (applyAtLoadedList q f cs)
    else .mk p d e s l cs

/-- `applyAtLoaded` over a children list. -/
def applyAtLoadedList (q : String) (f : Node → Node) : List Node → List Node
  | [] => []
  | c :: cs => applyAtLoaded q f c :: applyAtLoadedList q f cs

end

/-! ### View projector (src/main.go, `flatten`) -/

mutual

/-- The inner `recurse` closure of Go `flatten`: emit `(n, depth)`, then,
if the node is expanded, its children at `depth + 1`. -/
def flattenRec : Node → Nat → List (Node × Nat)
  | .mk p d e s l cs, dep =>
    (.mk p d e s l cs, dep) :: (if e then flattenList cs (dep + 1) else [])

/-- `flattenRec` over a children list at one depth. -/
def flattenList : List Node → Nat → List (Node × Nat)
  | [], _ => []
  | c :: cs, dep => flattenRec c dep ++ flattenList cs dep

end

/-- Embeds Go `flatten(root)`: the walk starts from the root's children
at depth 0; the root itself is never emitted. -/
def flatten (root : Node) : List (Node × Nat) := flattenList root.children 0

/-! ### Artifact serializer (src/main.go, `hasSelected`,
`generateFileTree`, `generateTreeRec`, `generatePrompt`) -/

mutual

/-- Embeds Go `hasSelected(n)`: true iff the node itself is a selected
non-directory, or (when `childrenLoaded`) some child subtree contains a
selected non-directory. -/
def hasSelected : Node → Bool
  | .mk _ d _ s l cs => (s && !d) || (l && hasSelectedList cs)

/-- `hasSelected` disjunction over a children list. -/
def hasSelectedList : List Node → Bool
  | [] => false
  | c :: cs => hasSelected c || hasSelectedList cs

end

/-- The pruning filter used by `generateFileTree` and `generateTreeRec`:
a child is rendered iff `c.selected || hasSelected(c)`. -/
def keep (c : Node) : Bool := c.selected || hasSelected c

/-- Models `filepath.Base` for clean paths: the final path component. -/
def baseName (p : String) : String :=
  String.mk ((p.data.reverse.takeWhile (fun c => c != '/')).reverse)

theorem sizeOf_filter_le (p : Node → Bool) :
    ∀ l : List Node, sizeOf (l.filter p) ≤ sizeOf l := by
  intro l
  induction l with
  | nil => simp
  | cons a l ih =>
    simp only [List.filter_cons]
    split
    · simp only [List.cons.sizeOf_spec]
      omega
    · simp only [List.cons.sizeOf_spec]
      omega

mutual

/-- Embeds Go `generateTreeRec(n, prefix, isLast)`: one line for the
node (`└── ` when last among its rendered siblings, `├── ` otherwise,
after the accumulated indentation), then the rendered lines of its kept
children with the extended indentation. -/
def generateTreeRec : Node → String → Bool → String
  | n, pre, isLast =>
    let nm := baseName n.path
    let line := if isLast then pre ++ "└── " ++ nm ++ "\n" else pre ++ "├── " ++ nm ++ "\n"
    let pre' := if isLast then pre ++ "    " else pre ++ "│   "
    line ++ genTreeList (n.children.filter keep) pre'
termination_by n _ _ => sizeOf n
decreasing_by
  cases n with
  | mk p d e s l cs =>
    have := sizeOf_filter_le keep cs
    simp only [Node.children_mk, Node.mk.sizeOf_spec]
    omega

/-- The `for i, c := range children` loop body of `generateTreeRec` and
`generateFileTree`: `isLast` is true exactly for the final element. -/
def genTreeList : List Node → String → String
  | [], _ => ""
  | [c], pre => generateTreeRec c pre true
  | c :: c' :: cs, pre => generateTreeRec c pre false ++ genTreeList (c' :: cs) pre
termination_by cs _ => sizeOf cs
decreasing_by
  · simp only [List.cons.sizeOf_spec]; omega
  · simp only [List.cons.sizeOf_spec]; omega
  · simp only [List.cons.sizeOf_spec]; omega

end

/-- Embeds Go `generateFileTree(root)`: render the kept children of the
root with empty indentation. -/
def generateFileTree (root : Node) : String :=
  genTreeList (root.children.filter keep) ""

mutual

/-- The `collect` closure of Go `generatePrompt`: depth-first list of
paths of selected non-directories, descending only into loaded
children.  It is invoked on the root itself. -/
def collect : Node → List String
  | .mk p d _ s l cs =>
    (if s && !d then [p] else []) ++ (if l then collectList cs else [])

/-- `collect` over a children list. -/
def collectList : List Node → List String
  | [] => []
  | c :: cs => collect c ++ collectList cs

end

/-- File-reading oracle standing for `os.ReadFile`: `some` of the byte
content as a string, or `none` when the read fails. -/
def FileFS : Type := String → Option String

/-- The NUL byte, `"\x00"` in the Go source. -/
def nulChar : Char := Char.ofNat 0

/-- Models Go `strings.Contains(s, "\x00")`: the string has a NUL byte. -/
def containsNul (s : String) : Bool := s.data.any (fun c => c == nulChar)

/-- The per-file content choice of Go `generatePrompt`: the file's bytes,
or the literal `"[Binary file]"` placeholder when `os.ReadFile` fails or
the bytes contain NUL. -/
def contentFor (fs : FileFS) (p : String) : String :=
  match fs p with
  | none => "[Binary file]"
  | some b => if containsNul b then "[Binary file]" else b

/-- One `<file>` block of the file-contents segment, exactly as written
by the string-builder calls in Go `generatePrompt`. -/
def fileEntry (fs : FileFS) (p : String) : String :=
  "<file>\n<file_path>" ++ p ++ "</file_path>\n<file_content>\n"
    ++ contentFor fs p ++ "\n</file_content>\n</file>\n"

/-- Sequential `strings.Builder` writes, as concatenation. -/
def concatStrings : List String → String
  | [] => ""
  | s :: rest => s ++ concatStrings rest

/-- Embeds Go `generatePrompt`: tree segment, then one block per
collected selected file, then the user-request segment. -/
def generatePrompt (fs : FileFS) (root : Node) (userText : String) : String :=
  "<file_tree>\n" ++ generateFileTree root ++ "</file_tree>\n"
    ++ concatStrings ((collect root).map (fileEntry fs))
    ++ ("<user_request>\n" ++ userText ++ "\n</user_request>")

/-- Models `filepath.Dir` for the clean paths delivered by the watcher:
everything before the final `/` (`"."` when there is no slash, `"/"` for
a top-level entry). -/
def parentDir (p : String) : String :=
  match p.data.reverse.dropWhile (fun c => c != '/') with
  | [] => "."
  | ['/'] => "/"
  | _ :: rest => String.mk rest.reverse

/-! ### Derived structure used to state the claims -/

mutual

/-- Erases every `selected` flag in a subtree.  Two trees with the same
`eraseSel` image agree on paths, `isDir`, `expanded`, `childrenLoaded`
and topology, and differ at most in selection state. -/
def Node.eraseSel : Node → Node
  | .mk p d e _ l cs => .mk p d e false l (Node.eraseSelList cs)

/-- `eraseSel` over a children list. -/
def Node.eraseSelList : List Node → List Node
  | [] => []
  | c :: cs => c.eraseSel :: Node.eraseSelList cs

end

/-- The `(path, selected)` pairs of all materialized nodes of a subtree,
in depth-first pre-order. -/
def Node.selPairs (n : Node) : List (String × Bool) :=
  n.allNodes.map (fun m => (m.path, m.selected))

/-- A selected non-directory: what the serializer treats as a selected
file. -/
def fileSel (n : Node) : Bool := n.selected && !n.isDir

mutual

/-- Well-formedness: non-directories have no children (true of every
tree the program builds, since only directories are ever loaded). -/
def wfFiles : Node → Bool
  | .mk _ d _ _ _ cs => (d || cs.isEmpty) && wfFilesList cs

/-- `wfFiles` over a children list. -/
def wfFilesList : List Node → Bool
  | [] => true
  | c :: cs => wfFiles c && wfFilesList cs

end

mutual

/-- Well-formedness: a node with a non-empty children list is marked
`childrenLoaded` (true of every tree the program builds: `loadChildren`
sets the flag whenever it installs children). -/
def wfLoaded : Node → Bool
  | .mk _ _ _ _ l cs => (cs.isEmpty || l) && wfLoadedList cs

/-- `wfLoaded` over a children list. -/
def wfLoadedList : List Node → Bool
  | [] => true
  | c :: cs => wfLoaded c && wfLoadedList cs

end

mutual

/-- The invariant of claim C9: `expanded` holds only on directories. -/
def invED : Node → Bool
  | .mk _ d e _ _ cs => (!e || d) && invEDList cs

/-- `invED` over a children list. -/
def invEDList : List Node → Bool
  | [] => true
  | c :: cs => invED c && invEDList cs

end

mutual

/-- The nodes reachable through loaded children lists: exactly the nodes
`hasSelected` and `collect` traverse. -/
def loadedNodes : Node → List Node
  | .mk p d e s l cs =>
    .mk p d e s l cs :: (if l then loadedNodesList cs else [])

/-- `loadedNodes` over a children list. -/
def loadedNodesList : List Node → List Node
  | [] => []
  | c :: cs => loadedNodes c ++ loadedNodesList cs

end

mutual

/-- The nodes for which `generateTreeRec`, entered at this node, emits a
line: the node itself, then (pre-order) those of its kept children. -/
def visited : Node → List Node
  | .mk p d e s l cs => .mk p d e s l cs :: visitedKept cs

/-- `visited` of the kept members of a children list (the filter of
`generateFileTree`/`generateTreeRec` fused into the loop). -/
def visitedKept : List Node → List Node
  | [] => []
  | c :: cs => (if keep c then visited c else []) ++ visitedKept cs

end

/-- `visited` over an (already filtered) list. -/
def visitedList : List Node → List Node
  | [] => []
  | c :: cs => visited c ++ visitedList cs

/-- The nodes for which the tree segment of the rendered document emits
a line (the root itself is never rendered). -/
def treeNodes (root : Node) : List Node :=
  visitedList (root.children.filter keep)

/-- `ChainTo cs ch N`: `ch` is a descent chain that starts at a member
of `cs`, steps into a child list at each link, and ends at `N` (its last
element). -/
inductive ChainTo : List Node → List Node → Node → Prop where
  | last {cs : List Node} {N : Node} : N ∈ cs → ChainTo cs [N] N
  | cons {cs : List Node} {c : Node} {ch : List Node} {N : Node} :
      c ∈ cs → ChainTo c.children ch N → ChainTo cs (c :: ch) N

/-! ### The interactive session (src/main.go, `model`, `Update`, `main`)

The bubbletea framework is the opaque event source: it delivers key and
filesystem messages one at a time to `Update`.  The embedded `Model`
keeps exactly the session state `Update` reads and writes; the opaque
internal state of the list widget (cursor position, filter mode) is
represented by the `cursor` and `settingFilter` fields, moved by
dedicated external messages, and the textarea widget is modelled as its
text plus a focus flag. -/

/-- The three `sessionState` values of the Go source. -/
inductive SessionState : Type where
  | fileTreeView
  | textAreaView
  | acceptView
deriving DecidableEq

/-- Key messages as dispatched by `msg.String()` in `Update`:
`"ctrl+c"`, `"tab"`, `"enter"`, `" "`, printable characters, and
anything else. -/
inductive Key : Type where
  | char (c : Char)
  | tab
  | enter
  | space
  | ctrlC
  | other
deriving DecidableEq

/-- An fsnotify change notification: the changed path and the operation
bitmask. -/
structure FsEvent : Type where
  name : String
  op : Nat
deriving DecidableEq

/-- `fsnotify.Write` (bit 1 of the `Op` bitmask). -/
def writeOp : Nat := 2

/-- Messages consumed by the event loop.  `setCursor` and `setFilter`
stand for the list widget's own handling of navigation and filter keys
(opaque component state changes that never touch the tree). -/
inductive Msg : Type where
  | key (k : Key)
  | fsEvent (ev : FsEvent)
  | fsErr
  | setCursor (i : Nat)
  | setFilter (b : Bool)
deriving DecidableEq

/-- The session state threaded through `Update`. -/
structure Model : Type where
  tree : Node
  flatItems : List (Node × Nat)
  cursor : Nat
  settingFilter : Bool
  taFocused : Bool
  focus : SessionState
  text : String
  prompt : String
  quitting : Bool
deriving DecidableEq

/-- Minimal model of the external `textarea.Model` update: when focused
it appends the typed character (space inserts `' '`, enter `'\n'`); when
blurred, or for non-editing keys, the text is unchanged. -/
def textareaUpdate (focused : Bool) (text : String) : Key → String
  | .char c => if focused then text.push c else text
  | .space => if focused then text.push ' ' else text
  | .enter => if focused then text.push '\n' else text
  | _ => text

/-- The node-local mutation of the `enter` branch of `Update`: flip
`expanded`, then load children when now expanded and not yet loaded.
The Go code performs this through the item's node pointer after checking
`sel.node.isDir`; the check is repeated here so the replacement applies
exactly to that directory node. -/
def expandToggle (fs : DirFS) (n : Node) : Node :=
  if n.isDir then
    let flipped := Node.mk n.path n.isDir (!n.expanded) n.selected n.childrenLoaded n.children
    if flipped.expanded && !flipped.childrenLoaded then loadChildren fs flipped else flipped
  else n

/-- The `"enter"` branch of `Update` in `fileTreeView`: toggle expansion
of the directory under the cursor, lazily load it, re-derive the
flattened view and re-select the row with the same path. -/
def enterStep (fs : DirFS) (m : Model) : Model :=
  match m.flatItems.get? m.cursor with
  | none => m
  | some it =>
    if it.1.isDir then
      let curPath := it.1.path
      let t := applyAt curPath (expandToggle fs) m.tree
      let items := flatten t
      let cur := (items.findIdx? (fun jt => jt.1.path == curPath)).getD m.cursor
      { m with tree := t, flatItems := items, cursor := cur }
    else m

/-- The `" "` branch of `Update` in `fileTreeView`: read the current
`selected` flag of the node under the cursor (a pointer dereference in
Go, rendered as a lookup of that path in the current tree) and cascade
its negation through the subtree. -/
def spaceStep (m : Model) : Model :=
  match m.flatItems.get? m.cursor with
  | none => m
  | some it =>
    match m.tree.find? it.1.path with
    | none => m
    | some cur =>
      { m with tree := applyAt it.1.path (Node.toggleSelect (!cur.selected)) m.tree }

/-- The `tea.KeyMsg` branch of `Update`.  Returns the next model and
whether `tea.Quit` was issued.  `"ctrl+c"` and `"q"` quit from every
state before any focus dispatch; in `fileTreeView` the tree keys are
ignored while the list filter is being edited. -/
def keyStep (fsd : DirFS) (fsf : FileFS) (m : Model) (k : Key) : Model × Bool :=
  if k = .ctrlC ∨ k = .char 'q' then ({ m with quitting := true }, true)
  else
    match m.focus with
    | .fileTreeView =>
      if m.settingFilter then (m, false)
      else
        match k with
        | .enter => (enterStep fsd m, false)
        | .space => (spaceStep m, false)
        | .tab => ({ m with focus := .textAreaView, taFocused := true }, false)
        | .char _ => (m, false)
        | .ctrlC => (m, false)
        | .other => (m, false)
    | .textAreaView =>
      match k with
      | .tab =>
        ({ m with
            focus := SessionState.acceptView
            taFocused := false
            text := textareaUpdate false m.text Key.tab }, false)
      | .char c => ({ m with text := textareaUpdate m.taFocused m.text (.char c) }, false)
      | .space => ({ m with text := textareaUpdate m.taFocused m.text .space }, false)
      | .enter => ({ m with text := textareaUpdate m.taFocused m.text .enter }, false)
      | .ctrlC => ({ m with text := textareaUpdate m.taFocused m.text .ctrlC }, false)
      | .other => ({ m with text := textareaUpdate m.taFocused m.text .other }, false)
    | .acceptView =>
      match k with
      | .enter => ({ m with prompt := generatePrompt fsf m.tree m.text }, true)
      | .tab => ({ m with focus := SessionState.fileTreeView }, false)
      | .char _ => (m, false)
      | .space => (m, false)
      | .ctrlC => (m, false)
      | .other => (m, false)

/-- The `fsEventMsg` branch of `Update`: derive the containing directory
of the changed path, look it up with `findNode`, and reload it (and
re-derive the flattened view) only when it is found, expanded, and the
event is not a pure write. -/
def fsEventStep (fsd : DirFS) (m : Model) (ev : FsEvent) : Model :=
  match findNode m.tree (parentDir ev.name) with
  | none => m
  | some n =>
    if n.expanded && !(ev.op == writeOp) then
      { m with
          tree := applyAtLoaded (parentDir ev.name) (loadChildren fsd) m.tree
          flatItems := flatten (applyAtLoaded (parentDir ev.name) (loadChildren fsd) m.tree) }
    else m

/-- One `Update` call.  `fsErr` only records the error (not modelled) and
re-arms the watcher; component-state messages touch only the widget
fields. -/
def msgStep (fsd : DirFS) (fsf : FileFS) (m : Model) : Msg → Model × Bool
  | .key k => keyStep fsd fsf m k
  | .fsEvent ev => (fsEventStep fsd m ev, false)
  | .fsErr => (m, false)
  | .setCursor i => ({ m with cursor := i }, false)
  | .setFilter b => ({ m with settingFilter := b }, false)

/-- Drains a message list through `Update`, stopping at the first
`tea.Quit`, as the bubbletea loop does. -/
def runMsgs (fsd : DirFS) (fsf : FileFS) : Model → List Msg → Model × Bool
  | m, [] => (m, false)
  | m, msg :: rest =>
    match msgStep fsd fsf m msg with
    | (m', true) => (m', true)
    | (m', false) => runMsgs fsd fsf m' rest

/-- Embeds Go `newModel(path)`: the root node is an expanded directory,
its children are loaded eagerly, and the flattened view derived. -/
def initModel (fsd : DirFS) (path : String) : Model :=
  let root := loadChildren fsd (Node.mk path true true false false [])
  { tree := root, flatItems := flatten root, cursor := 0, settingFilter := false,
    taFocused := false, focus := SessionState.fileTreeView, text := "", prompt := "",
    quitting := false }

/-- Embeds the tail of Go `main`: the session's document output — the
final model's prompt is delivered (to the clipboard) exactly when it is
non-empty. -/
def mainOutput (m : Model) : Option String :=
  if m.prompt = "" then none else some m.prompt

/-! ### Unfolding equations for the mutual definitions -/

@[simp] theorem Node.toggleSelect_mk (v : Bool) (p : String) (d e s l : Bool)
    (cs : List Node) :
    (Node.mk p d e s l cs).toggleSelect v =
      .mk p d e v l (if d then Node.toggleSelectList v cs else cs) := by
  rw [Node.toggleSelect]

@[simp] theorem Node.toggleSelectList_nil (v : Bool) : Node.toggleSelectList v [] = [] := by
  rw [Node.toggleSelectList]

@[simp] theorem Node.toggleSelectList_cons (v : Bool) (c : Node) (cs : List Node) :
    Node.toggleSelectList v (c :: cs) = c.toggleSelect v :: Node.toggleSelectList v cs := by
  rw [Node.toggleSelectList]

@[simp] theorem Node.find?_mk (p : String) (d e s l : Bool) (cs : List Node) (q : String) :
    (Node.mk p d e s l cs).find? q =
      if p = q then some (.mk p d e s l cs) else Node.findList cs q := by
  rw [Node.find?]

@[simp] theorem Node.findList_nil (q : String) : Node.findList [] q = none := by
  rw [Node.findList]

@[simp] theorem Node.findList_cons (c : Node) (cs : List Node) (q : String) :
    Node.findList (c :: cs) q =
      match c.find? q with
      | some r => some r
      | none => Node.findList cs q := by
  rw [Node.findList]

@[simp] theorem findNode_mk (p : String) (d e s l : Bool) (cs : List Node) (q : String) :
    findNode (.mk p d e s l cs) q =
      if p = q then some (.mk p d e s l cs)
      else if l then findNodeList cs q else none := by
  rw [findNode]

@[simp] theorem findNodeList_nil (q : String) : findNodeList [] q = none := by
  rw [findNodeList]

@[simp] theorem findNodeList_cons (c : Node) (cs : List Node) (q : String) :
    findNodeList (c :: cs) q =
      match findNode c q with
      | some r => some r
      | none => findNodeList cs q := by
  rw [findNodeList]

@[simp] theorem applyAt_mk (q : String) (f : Node → Node) (p : String) (d e s l : Bool)
    (cs : List Node) :
    applyAt q f (.mk p d e s l cs) =
      if p = q then f (.mk p d e s l cs) else .mk p d e s l (applyAtList q f cs) := by
  rw [applyAt]

@[simp] theorem applyAtList_nil (q : String) (f : Node → Node) : applyAtList q f [] = [] := by
  rw [applyAtList]

@[simp] theorem applyAtList_cons (q : String) (f : Node → Node) (c : Node) (cs : List Node) :
    applyAtList q f (c :: cs) = applyAt q f c :: applyAtList q f cs := by
  rw [applyAtList]

@[simp] theorem applyAtLoaded_mk (q : String) (f : Node → Node) (p : String) (d e s l : Bool)
    (cs : List Node) :
    applyAtLoaded q f (.mk p d e s l cs) =
      if p = q then f (.mk p d e s l cs)
      else if l then .mk p d e s l (applyAtLoadedList q f cs)
      else .mk p d e s l cs := by
  rw [applyAtLoaded]

@[simp] theorem applyAtLoadedList_nil (q : String) (f : Node → Node) :
    applyAtLoadedList q f [] = [] := by
  rw [applyAtLoadedList]

@[simp] theorem applyAtLoadedList_cons (q : String) (f : Node → Node) (c : Node)
    (cs : List Node) :
    applyAtLoadedList q f (c :: cs) = applyAtLoaded q f c :: applyAtLoadedList q f cs := by
  rw [applyAtLoadedList]

@[simp] theorem flattenRec_mk (p : String) (d e s l : Bool) (cs : List Node) (dep : Nat) :
    flattenRec (.mk p d e s l cs) dep =
      (.mk p d e s l cs, dep) :: (if e then flattenList cs (dep + 1) else []) := by
  rw [flattenRec]

@[simp] theorem flattenList_nil (dep : Nat) : flattenList [] dep = [] := by
  rw [flattenList]

@[simp] theorem flattenList_cons (c : Node) (cs : List Node) (dep : Nat) :
    flattenList (c :: cs) dep = flattenRec c dep ++ flattenList cs dep := by
  rw [flattenList]

@[simp] theorem hasSelected_mk (p : String) (d e s l : Bool) (cs : List Node) :
    hasSelected (.mk p d e s l cs) = ((s && !d) || (l && hasSelectedList cs)) := by
  rw [hasSelected]

@[simp] theorem hasSelectedList_nil : hasSelectedList [] = false := by
  rw [hasSelectedList]

@[simp] theorem hasSelectedList_cons (c : Node) (cs : List Node) :
    hasSelectedList (c :: cs) = (hasSelected c || hasSelectedList cs) := by
  rw [hasSelectedList]

@[simp] theorem collect_mk (p : String) (d e s l : Bool) (cs : List Node) :
    collect (.mk p d e s l cs) =
      (if s && !d then [p] else []) ++ (if l then collectList cs else []) := by
  rw [collect]

@[simp] theorem collectList_nil : collectList [] = [] := by
  rw [collectList]

@[simp] theorem collectList_cons (c : Node) (cs : List Node) :
    collectList (c :: cs) = collect c ++ collectList cs := by
  rw [collectList]

@[simp] theorem Node.eraseSel_mk (p : String) (d e s l : Bool) (cs : List Node) :
    (Node.mk p d e s l cs).eraseSel = .mk p d e false l (Node.eraseSelList cs) := by
  rw [Node.eraseSel]

@[simp] theorem Node.eraseSelList_nil : Node.eraseSelList [] = [] := by
  rw [Node.eraseSelList]

@[simp] theorem Node.eraseSelList_cons (c : Node) (cs : List Node) :
    Node.eraseSelList (c :: cs) = c.eraseSel :: Node.eraseSelList cs := by
  rw [Node.eraseSelList]

@[simp] theorem wfFiles_mk (p : String) (d e s l : Bool) (cs : List Node) :
    wfFiles (.mk p d e s l cs) = ((d || cs.isEmpty) && wfFilesList cs) := by
  rw [wfFiles]

@[simp] theorem wfFilesList_nil : wfFilesList [] = true := by
  rw [wfFilesList]

@[simp] theorem wfFilesList_cons (c : Node) (cs : List Node) :
    wfFilesList (c :: cs) = (wfFiles c && wfFilesList cs) := by
  rw [wfFilesList]

@[simp] theorem wfLoaded_mk (p : String) (d e s l : Bool) (cs : List Node) :
    wfLoaded (.mk p d e s l cs) = ((cs.isEmpty || l) && wfLoadedList cs) := by
  rw [wfLoaded]

@[simp] theorem wfLoadedList_nil : wfLoadedList [] = true := by
  rw [wfLoadedList]

@[simp] theorem wfLoadedList_cons (c : Node) (cs : List Node) :
    wfLoadedList (c :: cs) = (wfLoaded c && wfLoadedList cs) := by
  rw [wfLoadedList]

@[simp] theorem invED_mk (p : String) (d e s l : Bool) (cs : List Node) :
    invED (.mk p d e s l cs) = ((!e || d) && invEDList cs) := by
  rw [invED]

@[simp] theorem invEDList_nil : invEDList [] = true := by
  rw [invEDList]

@[simp] theorem invEDList_cons (c : Node) (cs : List Node) :
    invEDList (c :: cs) = (invED c && invEDList cs) := by
  rw [invEDList]

@[simp] theorem loadedNodes_mk (p : String) (d e s l : Bool) (cs : List Node) :
    loadedNodes (.mk p d e s l cs) =
      .mk p d e s l cs :: (if l then loadedNodesList cs else []) := by
  rw [loadedNodes]

@[simp] theorem loadedNodesList_nil : loadedNodesList [] = [] := by
  rw [loadedNodesList]

@[simp] theorem loadedNodesList_cons (c : Node) (cs : List Node) :
    loadedNodesList (c :: cs) = loadedNodes c ++ loadedNodesList cs := by
  rw [loadedNodesList]

@[simp] theorem visitedList_nil : visitedList [] = [] := by
  rw [visitedList]

@[simp] theorem visitedList_cons (c : Node) (cs : List Node) :
    visitedList (c :: cs) = visited c ++ visitedList cs := by
  rw [visitedList]

theorem visitedKept_nil : visitedKept [] = [] := by
  rw [visitedKept]

theorem visitedKept_cons (c : Node) (cs : List Node) :
    visitedKept (c :: cs) = (if keep c then visited c else []) ++ visitedKept cs := by
  rw [visitedKept]

theorem visitedKept_eq_filter : ∀ cs : List Node,
    visitedKept cs = visitedList (cs.filter keep) := by
  intro cs
  induction cs with
  | nil => rw [visitedKept_nil, List.filter_nil, visitedList_nil]
  | cons c rest ih =>
    rw [visitedKept_cons, List.filter_cons]
    cases hk : keep c with
    | true => simp only [if_pos, visitedList_cons, ih]
    | false => simp only [Bool.false_eq_true, if_neg, if_false, visitedList_nil, ih,
        List.nil_append]

@[simp] theorem visited_mk (p : String) (d e s l : Bool) (cs : List Node) :
    visited (.mk p d e s l cs) = .mk p d e s l cs :: visitedList (cs.filter keep) := by
  rw [visited, visitedKept_eq_filter]

theorem generateTreeRec_eq (n : Node) (pre : String) (isLast : Bool) :
    generateTreeRec n pre isLast =
      (if isLast then pre ++ "└── " ++ baseName n.path ++ "\n"
        else pre ++ "├── " ++ baseName n.path ++ "\n")
      ++ genTreeList (n.children.filter keep)
          (if isLast then pre ++ "    " else pre ++ "│   ") := by
  rw [generateTreeRec]

@[simp] theorem genTreeList_nil (pre : String) : genTreeList [] pre = "" := by
  rw [genTreeList]

theorem genTreeList_single (c : Node) (pre : String) :
    genTreeList [c] pre = generateTreeRec c pre true := by
  rw [genTreeList]

theorem genTreeList_cons2 (c c' : Node) (cs : List Node) (pre : String) :
    genTreeList (c :: c' :: cs) pre =
      generateTreeRec c pre false ++ genTreeList (c' :: cs) pre := by
  rw [genTreeList]

/-! ### Basic structural lemmas -/

theorem Node.self_mem_allNodes (n : Node) : n ∈ n.allNodes := by
  cases n with
  | mk p d e s l cs => simp

theorem Node.mem_allNodesList (x : Node) (cs : List Node) :
    x ∈ Node.allNodesList cs ↔ ∃ c ∈ cs, x ∈ c.allNodes := by
  induction cs with
  | nil => simp
  | cons c cs ih =>
    simp only [Node.allNodesList_cons, List.mem_append, ih, List.mem_cons]
    constructor
    · rintro (h | ⟨c', hc', hx⟩)
      · exact ⟨c, Or.inl rfl, h⟩
      · exact ⟨c', Or.inr hc', hx⟩
    · rintro ⟨c', (rfl | hc'), hx⟩
      · exact Or.inl hx
      · exact Or.inr ⟨c', hc', hx⟩

theorem Node.sizeOf_child_lt (n c : Node) (h : c ∈ n.children) : sizeOf c < sizeOf n := by
  cases n with
  | mk p d e s l cs =>
    simp only [Node.children_mk] at h
    have := List.sizeOf_lt_of_mem h
    simp only [Node.mk.sizeOf_spec]
    omega

theorem Node.sizeOf_le_of_mem_allNodes :
    ∀ (n m : Node), m ∈ n.allNodes → sizeOf m ≤ sizeOf n := by
  intro n
  induction n using Node.recOn' with
  | h p d e s l cs ih =>
    intro m hm
    simp only [Node.allNodes_mk, List.mem_cons] at hm
    rcases hm with rfl | hm
    · exact le_refl _
    · rw [Node.mem_allNodesList] at hm
      obtain ⟨c, hc, hx⟩ := hm
      have h1 := ih c hc m hx
      have h2 := List.sizeOf_lt_of_mem hc
      simp only [Node.mk.sizeOf_spec]
      omega

/-! ### Lemmas about `flatten` (claim C6) -/

theorem flattenRec_expanded (n : Node) (dep : Nat) (h : n.expanded = true) :
    flattenRec n dep = (n, dep) :: flattenList n.children (dep + 1) := by
  cases n with
  | mk p d e s l cs =>
    simp only [Node.expanded_mk] at h
    subst h
    simp

theorem flattenRec_not_expanded (n : Node) (dep : Nat) (h : n.expanded = false) :
    flattenRec n dep = [(n, dep)] := by
  cases n with
  | mk p d e s l cs =>
    simp only [Node.expanded_mk] at h
    subst h
    simp

theorem mem_flattenList (x : Node × Nat) (cs : List Node) (dep : Nat) :
    x ∈ flattenList cs dep ↔ ∃ c ∈ cs, x ∈ flattenRec c dep := by
  induction cs with
  | nil => simp
  | cons c cs ih =>
    simp only [flattenList_cons, List.mem_append, ih, List.mem_cons]
    constructor
    · rintro (h | ⟨c', hc', hx⟩)
      · exact ⟨c, Or.inl rfl, h⟩
      · exact ⟨c', Or.inr hc', hx⟩
    · rintro ⟨c', (rfl | hc'), hx⟩
      · exact Or.inl hx
      · exact Or.inr ⟨c', hc', hx⟩

theorem mem_allNodes_of_mem_flattenRec :
    ∀ (n : Node) (dep : Nat) (m : Node) (d' : Nat),
      (m, d') ∈ flattenRec n dep → m ∈ n.allNodes := by
  intro n
  induction n using Node.recOn' with
  | h p d e s l cs ih =>
    intro dep m d' hm
    simp only [flattenRec_mk, List.mem_cons, Prod.mk.injEq] at hm
    rcases hm with ⟨rfl, _⟩ | hm
    · exact Node.self_mem_allNodes _
    · rcases e with _ | _
      · simp at hm
      · simp only [if_pos] at hm
        rw [mem_flattenList] at hm
        obtain ⟨c, hc, hx⟩ := hm
        have := ih c hc (dep + 1) m d' hx
        simp only [Node.allNodes_mk, List.mem_cons]
        exact Or.inr ((Node.mem_allNodesList m cs).mpr ⟨c, hc, this⟩)

theorem flatten_excludes_root (root : Node) : ∀ d', (root, d') ∉ flatten root := by
  intro d' hmem
  rw [flatten, mem_flattenList] at hmem
  obtain ⟨c, hc, hx⟩ := hmem
  have h1 := mem_allNodes_of_mem_flattenRec c 0 root d' hx
  have h2 := Node.sizeOf_le_of_mem_allNodes c root h1
  have h3 := Node.sizeOf_child_lt root c hc
  omega

/-- C6: `flatten` walks depth-first, pre-order, starting from the root's
immediate children and never emitting the root itself; a node with
`expanded = true` is followed immediately by the walk of its children at
`depth + 1`, in children-list order, and a node with `expanded = false`
contributes exactly one entry regardless of the size of its subtree. -/
theorem c6_flatten_preorder (root n : Node) (dep : Nat) :
    flatten root = flattenList root.children 0
    ∧ (n.expanded = true → flattenRec n dep = (n, dep) :: flattenList n.children (dep + 1))
    ∧ (n.expanded = false → flattenRec n dep = [(n, dep)])
    ∧ (∀ d', (root, d') ∉ flatten root) :=
  ⟨rfl, flattenRec_expanded n dep, flattenRec_not_expanded n dep, flatten_excludes_root root⟩

/-- A collapsed directory holding two loaded children, used to witness C6. -/
def wNode6 : Node :=
  .mk "/p/a" true false false true
    [.mk "/p/a/x" false false false false [], .mk "/p/a/y" false false false false []]

/-- Witness for C6: the collapsed two-child directory `wNode6`
contributes exactly one entry. -/
theorem c6_flatten_preorder_witness :
    wNode6.expanded = false ∧ flattenRec wNode6 0 = [(wNode6, 0)] :=
  ⟨rfl, (c6_flatten_preorder wNode6 wNode6 0).2.2.1 rfl⟩

/-! ### Claim C5: loader failure behaviour -/

/-- C5 (amended): when the directory read fails, `loadChildren` leaves
the node's entire prior state untouched — children, `childrenLoaded`,
`expanded` and `selected` unchanged — and the session continues (the
function is total and mutates nothing); the error, however, is silently
discarded rather than reported to the caller. -/
theorem c5_loadChildren_failure (fs : DirFS) (n : Node) (h : fs n.path = none) :
    loadChildren fs n = n := by
  rw [loadChildren, h]

/-- A loaded, empty directory node used for the C5 witness and
counterexample. -/
def n5 : Node := .mk "/p" true false false true []

/-- A directory oracle whose reads always fail. -/
def fsFail : DirFS := fun _ => none

/-- A directory oracle that reads every directory as empty. -/
def fsEmptyOk : DirFS := fun _ => some []

/-- Witness for C5: a failing load of `n5` returns it unchanged. -/
theorem c5_loadChildren_failure_witness :
    fsFail n5.path = none ∧ loadChildren fsFail n5 = n5 :=
  ⟨rfl, c5_loadChildren_failure fsFail n5 rfl⟩

/-- Counterexample for C5 as stated: the claim says the failure is
reported to the caller, but Go `loadChildren` returns no error value
(`if err != nil { return }`): on the same node, a failing read and a
successful read of an empty directory produce identical results, so the
caller cannot observe the failure at all. -/
theorem c5_counterexample :
    fsFail n5.path = none
    ∧ fsEmptyOk n5.path = some []
    ∧ loadChildren fsFail n5 = loadChildren fsEmptyOk n5 :=
  ⟨rfl, rfl, rfl⟩

/-! ### Claim C4: the change-event router -/

/-- C4: on a change notification the router derives the parent directory
of the changed path and reloads that directory's node (re-deriving the
flattened view) exactly when `findNode` finds it, it is expanded, and
the event is not a pure write; in every other case the whole model —
tree and flattened view included — is left unchanged. -/
theorem c4_router (fsd : DirFS) (fsf : FileFS) (m : Model) (ev : FsEvent) :
    (findNode m.tree (parentDir ev.name) = none →
      msgStep fsd fsf m (.fsEvent ev) = (m, false))
    ∧ (∀ n, findNode m.tree (parentDir ev.name) = some n →
        (n.expanded = false ∨ ev.op = writeOp) →
        msgStep fsd fsf m (.fsEvent ev) = (m, false))
    ∧ (∀ n, findNode m.tree (parentDir ev.name) = some n →
        n.expanded = true → ev.op ≠ writeOp →
        (msgStep fsd fsf m (.fsEvent ev)).1.tree
            = applyAtLoaded (parentDir ev.name) (loadChildren fsd) m.tree
          ∧ (msgStep fsd fsf m (.fsEvent ev)).1.flatItems
            = flatten (applyAtLoaded (parentDir ev.name) (loadChildren fsd) m.tree)
          ∧ (msgStep fsd fsf m (.fsEvent ev)).2 = false) := by
  refine ⟨?_, ?_, ?_⟩
  · intro h
    simp [msgStep, fsEventStep, h]
  · intro n hfind hcond
    simp only [msgStep, fsEventStep, hfind]
    rcases hcond with h | h
    · simp [h]
    · simp [h]
  · intro n hfind hexp hop
    have hbeq : (ev.op == writeOp) = false := by
      simp only [beq_eq_false_iff_ne, ne_eq]
      exact hop
    simp [msgStep, fsEventStep, hfind, hexp, hbeq]

/-- The C4 witness model: a root whose child directory `/p/a` is loaded
but collapsed. -/
def m4 : Model where
  tree := .mk "/p" true true false true
    [.mk "/p/a" true false false true [.mk "/p/a/x" false false false false []]]
  flatItems := flatten (.mk "/p" true true false true
    [.mk "/p/a" true false false true [.mk "/p/a/x" false false false false []]])
  cursor := 0
  settingFilter := false
  taFocused := false
  focus := .fileTreeView
  text := ""
  prompt := ""
  quitting := false

/-- A create event below the collapsed directory `/p/a`. -/
def ev4 : FsEvent := ⟨"/p/a/newfile", 1⟩

/-- A file oracle whose reads always fail. -/
def fsfNone : FileFS := fun _ => none

/-- Witness for C4 (the spec's scenario): an event inside a collapsed
directory changes nothing — neither the tree nor the flattened view. -/
theorem c4_router_witness :
    msgStep fsFail fsfNone m4 (.fsEvent ev4) = (m4, false) :=
  (c4_router fsFail fsfNone m4 ev4).2.1
    (.mk "/p/a" true false false true [.mk "/p/a/x" false false false false []])
    (by decide) (Or.inl rfl)

/-! ### Lookup and path lemmas (towards claim C2) -/

@[simp] theorem Node.allPaths_mk (p : String) (d e s l : Bool) (cs : List Node) :
    (Node.mk p d e s l cs).allPaths = p :: (Node.allNodesList cs).map Node.path := by
  simp [Node.allPaths]

theorem Node.mem_allPaths_self (n : Node) : n.path ∈ n.allPaths := by
  cases n with
  | mk p d e s l cs => simp

theorem mem_pathsList_iff (q : String) (cs : List Node) :
    q ∈ (Node.allNodesList cs).map Node.path ↔ ∃ c ∈ cs, q ∈ c.allPaths := by
  simp only [List.mem_map, Node.allPaths, Node.mem_allNodesList]
  constructor
  · rintro ⟨m, ⟨c, hc, hm⟩, rfl⟩
    exact ⟨c, hc, ⟨m, hm, rfl⟩⟩
  · rintro ⟨c, hc, m, hm, rfl⟩
    exact ⟨m, ⟨c, hc, hm⟩, rfl⟩

theorem Node.findList_cons_some (c : Node) (cs : List Node) (q : String) (r : Node)
    (hc : c.find? q = some r) : Node.findList (c :: cs) q = some r := by
  rw [Node.findList_cons, hc]

theorem Node.findList_cons_none (c : Node) (cs : List Node) (q : String)
    (hc : c.find? q = none) : Node.findList (c :: cs) q = Node.findList cs q := by
  rw [Node.findList_cons, hc]

theorem Node.findList_some_aux (cs : List Node)
    (h : ∀ c ∈ cs, ∀ q r, c.find? q = some r → r ∈ c.allNodes ∧ r.path = q) :
    ∀ q r, Node.findList cs q = some r → r ∈ Node.allNodesList cs ∧ r.path = q := by
  induction cs with
  | nil => intro q r hr; simp at hr
  | cons c rest ih =>
    intro q r hr
    cases hc : c.find? q with
    | some x =>
      rw [Node.findList_cons_some c rest q x hc] at hr
      injection hr with hxr
      subst hxr
      have hx := h c (by simp) q x hc
      exact ⟨by simp [hx.1], hx.2⟩
    | none =>
      rw [Node.findList_cons_none c rest q hc] at hr
      have hx := ih (fun c' hc' => h c' (by simp [hc'])) q r hr
      exact ⟨by simp [hx.1], hx.2⟩

theorem Node.find?_some :
    ∀ (n : Node) (q : String) (r : Node),
      n.find? q = some r → r ∈ n.allNodes ∧ r.path = q := by
  intro n
  induction n using Node.recOn' with
  | h p d e s l cs ih =>
    intro q r hr
    rw [Node.find?_mk] at hr
    by_cases hpq : p = q
    · rw [if_pos hpq] at hr
      injection hr with hxr
      subst hxr
      exact ⟨Node.self_mem_allNodes _, by simp [hpq]⟩
    · rw [if_neg hpq] at hr
      have hx := Node.findList_some_aux cs ih q r hr
      exact ⟨by simp [hx.1], hx.2⟩

theorem Node.findList_none_aux (cs : List Node)
    (h : ∀ c ∈ cs, ∀ q, (c.find? q = none ↔ q ∉ c.allPaths)) :
    ∀ q, (Node.findList cs q = none ↔ ∀ c ∈ cs, q ∉ c.allPaths) := by
  induction cs with
  | nil => intro q; simp
  | cons c rest ih =>
    intro q
    constructor
    · intro hr c' hc'
      cases hc : c.find? q with
      | some x =>
        rw [Node.findList_cons_some c rest q x hc] at hr
        exact absurd hr (by simp)
      | none =>
        rw [Node.findList_cons_none c rest q hc] at hr
        rcases List.mem_cons.mp hc' with rfl | hc'
        · exact (h c' (by simp) q).mp hc
        · exact ((ih (fun x hx => h x (by simp [hx])) q).mp hr) c' hc'
    · intro hall
      have hc : c.find? q = none := (h c (by simp) q).mpr (hall c (by simp))
      rw [Node.findList_cons_none c rest q hc]
      exact (ih (fun x hx => h x (by simp [hx])) q).mpr (fun x hx => hall x (by simp [hx]))

theorem Node.find?_eq_none_iff :
    ∀ (n : Node) (q : String), (n.find? q = none ↔ q ∉ n.allPaths) := by
  intro n
  induction n using Node.recOn' with
  | h p d e s l cs ih =>
    intro q
    rw [Node.find?_mk]
    by_cases hpq : p = q
    · subst hpq
      simp
    · rw [if_neg hpq]
      rw [Node.findList_none_aux cs ih q]
      simp only [Node.allPaths_mk, List.mem_cons, mem_pathsList_iff]
      constructor
      · intro hall hq
        rcases hq with hq | ⟨c, hc, hq⟩
        · exact hpq hq.symm
        · exact hall c hc hq
      · intro hq c hc hc'
        exact hq (Or.inr ⟨c, hc, hc'⟩)

theorem Node.mem_trans_allNodes :
    ∀ (c m N : Node), N ∈ c.allNodes → m ∈ N.allNodes → m ∈ c.allNodes := by
  intro c
  induction c using Node.recOn' with
  | h p d e s l cs ih =>
    intro m N hN hm
    simp only [Node.allNodes_mk, List.mem_cons] at hN ⊢
    rcases hN with rfl | hN
    · simpa using hm
    · rw [Node.mem_allNodesList] at hN
      obtain ⟨c', hc', hN'⟩ := hN
      exact Or.inr ((Node.mem_allNodesList m cs).mpr ⟨c', hc', ih c' hc' m N hN' hm⟩)

theorem Node.allPaths_subset_of_mem (c N : Node) (hN : N ∈ c.allNodes) :
    ∀ q, q ∈ N.allPaths → q ∈ c.allPaths := by
  intro q hq
  simp only [Node.allPaths, List.mem_map] at hq ⊢
  obtain ⟨m, hm, rfl⟩ := hq
  exact ⟨m, Node.mem_trans_allNodes c m N hN hm, rfl⟩

theorem applyAt_not_mem_aux (target : String) (f : Node → Node) (cs : List Node)
    (h : ∀ c ∈ cs, target ∉ c.allPaths → applyAt target f c = c)
    (hmem : ∀ c ∈ cs, target ∉ c.allPaths) :
    applyAtList target f cs = cs := by
  induction cs with
  | nil => simp
  | cons c rest ih =>
    rw [applyAtList_cons, h c (by simp) (hmem c (by simp)),
      ih (fun x hx => h x (by simp [hx])) (fun x hx => hmem x (by simp [hx]))]

theorem applyAt_not_mem (target : String) (f : Node → Node) :
    ∀ n : Node, target ∉ n.allPaths → applyAt target f n = n := by
  intro n
  induction n using Node.recOn' with
  | h p d e s l cs ih =>
    intro hmem
    simp only [Node.allPaths_mk, List.mem_cons] at hmem
    push_neg at hmem
    obtain ⟨hp, hrest⟩ := hmem
    rw [applyAt_mk, if_neg (fun hh => hp hh.symm)]
    have hall : ∀ c ∈ cs, target ∉ c.allPaths := by
      intro c hc hq
      exact hrest ((mem_pathsList_iff target cs).mpr ⟨c, hc, hq⟩)
    rw [applyAt_not_mem_aux target f cs (fun c hc _ => ih c hc (hall c hc)) hall]

/-! ### Claim C2: cascading selection -/

theorem Node.toggleSelectList_eq_map (v : Bool) :
    ∀ cs : List Node, Node.toggleSelectList v cs = cs.map (Node.toggleSelect v) := by
  intro cs
  induction cs with
  | nil => simp
  | cons c rest ih => simp [ih]

theorem Node.eraseSelList_eq_map :
    ∀ cs : List Node, Node.eraseSelList cs = cs.map Node.eraseSel := by
  intro cs
  induction cs with
  | nil => simp
  | cons c rest ih => simp [ih]

theorem applyAtList_eq_map (q : String) (f : Node → Node) :
    ∀ cs : List Node, applyAtList q f cs = cs.map (applyAt q f) := by
  intro cs
  induction cs with
  | nil => simp
  | cons c rest ih => simp [ih]

theorem Node.eraseSel_toggleSelect (v : Bool) :
    ∀ n : Node, (n.toggleSelect v).eraseSel = n.eraseSel := by
  intro n
  induction n using Node.recOn' with
  | h p d e s l cs ih =>
    rcases d with _ | _
    · simp
    · simp only [Node.toggleSelect_mk, if_pos, Node.eraseSel_mk, Node.mk.injEq, true_and]
      rw [Node.toggleSelectList_eq_map, Node.eraseSelList_eq_map, Node.eraseSelList_eq_map,
        List.map_map]
      exact List.map_congr_left (fun c hc => ih c hc)

theorem eraseSel_applyAt (target : String) (f : Node → Node)
    (hf : ∀ x, (f x).eraseSel = x.eraseSel) :
    ∀ t : Node, (applyAt target f t).eraseSel = t.eraseSel := by
  intro t
  induction t using Node.recOn' with
  | h p d e s l cs ih =>
    by_cases hpq : p = target
    · rw [applyAt_mk, if_pos hpq, hf]
    · rw [applyAt_mk, if_neg hpq]
      simp only [Node.eraseSel_mk, Node.mk.injEq, true_and]
      rw [Node.eraseSelList_eq_map, Node.eraseSelList_eq_map, applyAtList_eq_map,
        List.map_map]
      exact List.map_congr_left (fun c hc => ih c hc)

theorem wfFilesList_forall (cs : List Node) (h : wfFilesList cs = true) :
    ∀ c ∈ cs, wfFiles c = true := by
  induction cs with
  | nil => simp
  | cons c rest ih =>
    simp only [wfFilesList_cons, Bool.and_eq_true] at h
    intro x hx
    rcases List.mem_cons.mp hx with rfl | hx
    · exact h.1
    · exact ih h.2 x hx

theorem selPairs_toggleSelect_aux (v : Bool) (cs : List Node)
    (h : ∀ c ∈ cs, (c.toggleSelect v).allNodes.map (fun m => (m.path, m.selected))
      = c.allNodes.map (fun m => (m.path, v))) :
    (Node.allNodesList (cs.map (Node.toggleSelect v))).map (fun m => (m.path, m.selected))
      = (Node.allNodesList cs).map (fun m => (m.path, v)) := by
  induction cs with
  | nil => simp
  | cons c rest ih =>
    simp only [List.map_cons, Node.allNodesList_cons, List.map_append]
    rw [h c (by simp), ih (fun x hx => h x (by simp [hx]))]

/-- Cascade: on a well-formed subtree, `toggleSelect v` sets the
`selected` flag of every materialized node to `v` and changes no path. -/
theorem selPairs_toggleSelect (v : Bool) :
    ∀ n : Node, wfFiles n = true →
      (n.toggleSelect v).allNodes.map (fun m => (m.path, m.selected))
        = n.allNodes.map (fun m => (m.path, v)) := by
  intro n
  induction n using Node.recOn' with
  | h p d e s l cs ih =>
    intro hwf
    simp only [wfFiles_mk, Bool.and_eq_true] at hwf
    obtain ⟨hd, hlist⟩ := hwf
    have hwfc := wfFilesList_forall cs hlist
    rcases d with _ | _
    · have hcs : cs = [] := by
        cases cs with
        | nil => rfl
        | cons a rest => simp [List.isEmpty] at hd
      subst hcs
      simp
    · simp only [Node.toggleSelect_mk, if_pos, Node.allNodes_mk, List.map_cons,
        Node.path_mk, Node.selected_mk]
      rw [Node.toggleSelectList_eq_map,
        selPairs_toggleSelect_aux v cs (fun c hc => ih c hc (hwfc c hc))]

theorem c2_selPairs_aux (v : Bool) (target : String) (N : Node)
    (hwf : wfFiles N = true) :
    ∀ cs : List Node,
      (∀ c ∈ cs, ∀ N', c.allPaths.Nodup → c.find? target = some N' → wfFiles N' = true →
        (applyAt target (Node.toggleSelect v) c).allNodes.map (fun m => (m.path, m.selected))
          = c.allNodes.map
              (fun m => (m.path, if m.path ∈ N'.allPaths then v else m.selected))) →
      ((Node.allNodesList cs).map Node.path).Nodup →
      Node.findList cs target = some N →
      (Node.allNodesList (applyAtList target (Node.toggleSelect v) cs)).map
          (fun m => (m.path, m.selected))
        = (Node.allNodesList cs).map
            (fun m => (m.path, if m.path ∈ N.allPaths then v else m.selected)) := by
  intro cs
  induction cs with
  | nil => intro _ _ hfind; simp at hfind
  | cons c rest ih =>
    intro h hnodup hfind
    simp only [Node.allNodesList_cons, List.map_append] at hnodup
    rw [List.nodup_append] at hnodup
    obtain ⟨hnc, hnr, hdisj⟩ := hnodup
    rw [applyAtList_cons]
    simp only [Node.allNodesList_cons, List.map_append]
    cases hc : c.find? target with
    | some x =>
      rw [Node.findList_cons_some c rest target x hc] at hfind
      injection hfind with hxN
      subst hxN
      have hN_in_c : x ∈ c.allNodes := (Node.find?_some c target x hc).1
      have hNsub : ∀ q ∈ x.allPaths, q ∈ c.allPaths :=
        fun q hq => Node.allPaths_subset_of_mem c x hN_in_c q hq
      have htc : target ∈ c.allPaths := by
        have hNp := (Node.find?_some c target x hc).2
        have hself := Node.mem_allPaths_self x
        rw [hNp] at hself
        exact hNsub target hself
      have htail_not : ∀ r ∈ rest, target ∉ r.allPaths := by
        intro r hr hq
        exact hdisj htc ((mem_pathsList_iff target rest).mpr ⟨r, hr, hq⟩)
      rw [applyAt_not_mem_aux target _ rest
        (fun r hr _ => applyAt_not_mem target _ r (htail_not r hr)) htail_not]
      rw [h c (by simp) x hnc hc hwf]
      congr 1
      apply List.map_congr_left
      intro m hm
      have hnot : m.path ∉ x.allPaths := by
        intro hmp
        exact hdisj (hNsub m.path hmp) (List.mem_map_of_mem Node.path hm)
      simp [hnot]
    | none =>
      rw [Node.findList_cons_none c rest target hc] at hfind
      have hcnot : target ∉ c.allPaths := (Node.find?_eq_none_iff c target).mp hc
      rw [applyAt_not_mem target _ c hcnot]
      have hNblock : N ∈ Node.allNodesList rest ∧ N.path = target :=
        Node.findList_some_aux rest (fun c' _ => Node.find?_some c') target N hfind
      congr 1
      · apply List.map_congr_left
        intro m hm
        have hnot : m.path ∉ N.allPaths := by
          intro hmp
          obtain ⟨r, hr, hNr⟩ := (Node.mem_allNodesList N rest).mp hNblock.1
          have hq := Node.allPaths_subset_of_mem r N hNr m.path hmp
          exact hdisj (List.mem_map_of_mem Node.path hm)
            ((mem_pathsList_iff m.path rest).mpr ⟨r, hr, hq⟩)
        simp [hnot]
      · exact ih (fun x hx => h x (by simp [hx])) hnr hfind

/-- Locality + cascade combined, at node level. -/
theorem c2_selPairs (v : Bool) (target : String) :
    ∀ t N : Node, t.allPaths.Nodup → t.find? target = some N → wfFiles N = true →
      (applyAt target (Node.toggleSelect v) t).allNodes.map (fun m => (m.path, m.selected))
        = t.allNodes.map
            (fun m => (m.path, if m.path ∈ N.allPaths then v else m.selected)) := by
  intro t
  induction t using Node.recOn' with
  | h p d e s l cs ih =>
    intro N hnodup hfind hwf
    by_cases hpq : p = target
    · rw [Node.find?_mk, if_pos hpq] at hfind
      injection hfind with hN
      subst hN
      rw [applyAt_mk, if_pos hpq]
      rw [selPairs_toggleSelect v _ hwf]
      apply List.map_congr_left
      intro m hm
      have hmp : m.path ∈ (Node.mk p d e s l cs).allPaths := by
        rw [Node.allPaths]
        exact List.mem_map_of_mem Node.path hm
      rw [if_pos hmp]
    · rw [Node.find?_mk, if_neg hpq] at hfind
      rw [applyAt_mk, if_neg hpq]
      have hnodup2 : ((Node.allNodesList cs).map Node.path).Nodup
          ∧ p ∉ (Node.allNodesList cs).map Node.path := by
        simp only [Node.allPaths_mk, List.nodup_cons] at hnodup
        exact ⟨hnodup.2, hnodup.1⟩
      have hNblock : N ∈ Node.allNodesList cs ∧ N.path = target :=
        Node.findList_some_aux cs (fun c' _ => Node.find?_some c') target N hfind
      have hpN : p ∉ N.allPaths := by
        intro hp
        obtain ⟨c', hc', hNc⟩ := (Node.mem_allNodesList N cs).mp hNblock.1
        have hq := Node.allPaths_subset_of_mem c' N hNc p hp
        exact hnodup2.2 ((mem_pathsList_iff p cs).mpr ⟨c', hc', hq⟩)
      simp only [Node.allNodes_mk, List.map_cons, Node.path_mk, Node.selected_mk,
        hpN, if_neg]
      rw [c2_selPairs_aux v target N hwf cs ih hnodup2.1 hfind]
      simp

/-- C2: for a tree with unique paths, applying `toggleSelect(N, v)` to
the node `N` found at `target` (i) sets `selected = v` on `N` and on
every currently-loaded descendant of `N`, unconditionally overwriting
their prior selection state, while every node outside `N`'s subtree —
all of `N`'s ancestors included — keeps its prior `selected` flag, and
(ii) changes nothing but `selected` flags: paths, `isDir`, `expanded`,
`childrenLoaded` and the tree shape are untouched. -/
theorem c2_toggleSelect_cascade (v : Bool) (t N : Node) (target : String)
    (hfind : t.find? target = some N)
    (hnodup : t.allPaths.Nodup)
    (hwf : wfFiles N = true) :
    (applyAt target (Node.toggleSelect v) t).allNodes.map (fun m => (m.path, m.selected))
      = t.allNodes.map (fun m => (m.path, if m.path ∈ N.allPaths then v else m.selected))
    ∧ (applyAt target (Node.toggleSelect v) t).eraseSel = t.eraseSel :=
  ⟨c2_selPairs v target t N hnodup hfind hwf,
    eraseSel_applyAt target _ (Node.eraseSel_toggleSelect v) t⟩

/-- C2 witness tree: root `/p` with directory `/p/a` (two files below)
and file `/p/b`. -/
def t2w : Node :=
  .mk "/p" true true false true
    [.mk "/p/a" true false false true
      [.mk "/p/a/x" false false false false [], .mk "/p/a/y" false false true false []],
     .mk "/p/b" false false false false []]

/-- The subtree of `t2w` rooted at `/p/a`. -/
def n2w : Node :=
  .mk "/p/a" true false false true
    [.mk "/p/a/x" false false false false [], .mk "/p/a/y" false false true false []]

/-- Witness for C2: selecting `/p/a` in `t2w` marks exactly the `/p/a`
subtree selected (overwriting `/p/a/y`'s prior flag) and leaves
everything else unchanged. -/
theorem c2_toggleSelect_cascade_witness :
    (applyAt "/p/a" (Node.toggleSelect true) t2w).allNodes.map
        (fun m => (m.path, m.selected))
      = t2w.allNodes.map
          (fun m => (m.path, if m.path ∈ n2w.allPaths then true else m.selected))
    ∧ (applyAt "/p/a" (Node.toggleSelect true) t2w).eraseSel = t2w.eraseSel :=
  c2_toggleSelect_cascade true t2w n2w "/p/a" (by decide) (by decide) (by decide)

/-! ### Lemmas about `hasSelected`, `loadedNodes` and the pruned walk
(towards claim C1) -/

theorem mem_loadedNodesList (x : Node) (cs : List Node) :
    x ∈ loadedNodesList cs ↔ ∃ c ∈ cs, x ∈ loadedNodes c := by
  induction cs with
  | nil => simp
  | cons c rest ih =>
    simp only [loadedNodesList_cons, List.mem_append, ih, List.mem_cons]
    constructor
    · rintro (h | ⟨c', hc', hx⟩)
      · exact ⟨c, Or.inl rfl, h⟩
      · exact ⟨c', Or.inr hc', hx⟩
    · rintro ⟨c', (rfl | hc'), hx⟩
      · exact Or.inl hx
      · exact Or.inr ⟨c', hc', hx⟩

theorem Node.self_mem_loadedNodes (n : Node) : n ∈ loadedNodes n := by
  cases n with
  | mk p d e s l cs => simp

theorem loadedNodes_subset_allNodes :
    ∀ (n : Node), ∀ x ∈ loadedNodes n, x ∈ n.allNodes := by
  intro n
  induction n using Node.recOn' with
  | h p d e s l cs ih =>
    intro x hx
    simp only [loadedNodes_mk, List.mem_cons] at hx
    simp only [Node.allNodes_mk, List.mem_cons]
    rcases hx with rfl | hx
    · exact Or.inl rfl
    · rcases l with _ | _
      · simp at hx
      · simp only [if_pos] at hx
        obtain ⟨c, hc, hxc⟩ := (mem_loadedNodesList x cs).mp hx
        exact Or.inr ((Node.mem_allNodesList x cs).mpr ⟨c, hc, ih c hc x hxc⟩)

theorem hasSelectedList_eq_any (cs : List Node)
    (h : ∀ c ∈ cs, hasSelected c = (loadedNodes c).any fileSel) :
    hasSelectedList cs = (loadedNodesList cs).any fileSel := by
  induction cs with
  | nil => simp
  | cons c rest ih =>
    simp only [hasSelectedList_cons, loadedNodesList_cons, List.any_append]
    rw [h c (by simp), ih (fun x hx => h x (by simp [hx]))]

/-- `hasSelected n` is exactly: some node of the loaded subtree is a
selected non-directory. -/
theorem hasSelected_eq_any :
    ∀ n : Node, hasSelected n = (loadedNodes n).any fileSel := by
  intro n
  induction n using Node.recOn' with
  | h p d e s l cs ih =>
    rw [hasSelected_mk, loadedNodes_mk]
    rcases l with _ | _
    · simp [fileSel]
    · simp only [if_pos, List.any_cons]
      rw [hasSelectedList_eq_any cs ih]
      simp [fileSel]

theorem mem_visitedList (x : Node) (cs : List Node) :
    x ∈ visitedList cs ↔ ∃ c ∈ cs, x ∈ visited c := by
  induction cs with
  | nil => simp
  | cons c rest ih =>
    simp only [visitedList_cons, List.mem_append, ih, List.mem_cons]
    constructor
    · rintro (h | ⟨c', hc', hx⟩)
      · exact ⟨c, Or.inl rfl, h⟩
      · exact ⟨c', Or.inr hc', hx⟩
    · rintro ⟨c', (rfl | hc'), hx⟩
      · exact Or.inl hx
      · exact Or.inr ⟨c', hc', hx⟩

theorem Node.self_mem_visited (n : Node) : n ∈ visited n := by
  cases n with
  | mk p d e s l cs => simp

theorem ChainTo.weaken {cs cs' ch : List Node} {N : Node}
    (h : ChainTo cs ch N) (hsub : ∀ x ∈ cs, x ∈ cs') : ChainTo cs' ch N := by
  cases h with
  | last hm => exact .last (hsub _ hm)
  | cons hm hch => exact .cons (hsub _ hm) hch

theorem ChainTo.target_mem {cs ch : List Node} {N : Node} (h : ChainTo cs ch N) :
    N ∈ ch := by
  induction h with
  | last _ => simp
  | cons _ _ ih => simp [ih]

theorem ChainTo.head_mem {cs ch : List Node} {N : Node} (h : ChainTo cs ch N) :
    ∃ c₀ rest, ch = c₀ :: rest ∧ c₀ ∈ cs := by
  cases h with
  | last hm => exact ⟨N, [], rfl, hm⟩
  | cons hm hch => exact ⟨_, _, rfl, hm⟩

theorem ChainTo.nil_elim {ch : List Node} {N : Node} (h : ChainTo [] ch N) : False := by
  cases h with
  | last hm => simp at hm
  | cons hm _ => simp at hm

theorem visitedList_chain_aux (cs : List Node)
    (h : ∀ c ∈ cs, ∀ N, (N ∈ visited c ↔
      (N = c ∨ ∃ ch, ChainTo c.children ch N ∧ ∀ a ∈ ch, keep a = true))) :
    ∀ N, (N ∈ visitedList (cs.filter keep) ↔
      ∃ ch, ChainTo cs ch N ∧ ∀ a ∈ ch, keep a = true) := by
  induction cs with
  | nil =>
    intro N
    simp only [List.filter_nil, visitedList_nil, List.not_mem_nil, false_iff]
    rintro ⟨ch, hch, _⟩
    exact hch.nil_elim
  | cons c rest ih =>
    intro N
    have ihr := ih (fun x hx => h x (by simp [hx]))
    cases hk : keep c with
    | true =>
      rw [List.filter_cons_of_pos hk, visitedList_cons]
      simp only [List.mem_append]
      constructor
      · rintro (hv | hv)
        · rcases (h c (by simp) N).mp hv with rfl | ⟨ch, hch, hkeep⟩
          · exact ⟨[N], .last (by simp), by intro a ha; simp at ha; subst ha; exact hk⟩
          · refine ⟨c :: ch, .cons (by simp) hch, ?_⟩
            intro a ha
            rcases List.mem_cons.mp ha with rfl | ha
            · exact hk
            · exact hkeep a ha
        · obtain ⟨ch, hch, hkeep⟩ := (ihr N).mp hv
          exact ⟨ch, hch.weaken (fun x hx => by simp [hx]), hkeep⟩
      · rintro ⟨ch, hch, hkeep⟩
        cases hch with
        | last hm =>
          rcases List.mem_cons.mp hm with rfl | hm
          · exact Or.inl (Node.self_mem_visited N)
          · exact Or.inr ((ihr N).mpr ⟨[N], .last hm, hkeep⟩)
        | cons hm hch' =>
          rename_i c₀ ch'
          rcases List.mem_cons.mp hm with rfl | hm
          · refine Or.inl ((h c₀ (by simp) N).mpr (Or.inr ⟨ch', hch', ?_⟩))
            intro a ha
            exact hkeep a (by simp [ha])
          · exact Or.inr ((ihr N).mpr ⟨c₀ :: ch', .cons hm hch', hkeep⟩)
    | false =>
      rw [List.filter_cons_of_neg (by simp [hk])]
      rw [ihr N]
      constructor
      · rintro ⟨ch, hch, hkeep⟩
        exact ⟨ch, hch.weaken (fun x hx => by simp [hx]), hkeep⟩
      · rintro ⟨ch, hch, hkeep⟩
        cases hch with
        | last hm =>
          rcases List.mem_cons.mp hm with rfl | hm
          · have := hkeep N (by simp)
            rw [hk] at this
            exact absurd this (by simp)
          · exact ⟨[N], .last hm, hkeep⟩
        | cons hm hch' =>
          rename_i c₀ ch'
          rcases List.mem_cons.mp hm with rfl | hm
          · have := hkeep c₀ (by simp)
            rw [hk] at this
            exact absurd this (by simp)
          · exact ⟨c₀ :: ch', .cons hm hch', hkeep⟩

theorem mem_visited_iff_chain :
    ∀ (c N : Node), (N ∈ visited c ↔
      (N = c ∨ ∃ ch, ChainTo c.children ch N ∧ ∀ a ∈ ch, keep a = true)) := by
  intro c
  induction c using Node.recOn' with
  | h p d e s l cs ih =>
    intro N
    rw [visited_mk]
    simp only [List.mem_cons, Node.children_mk]
    exact or_congr Iff.rfl (visitedList_chain_aux cs ih N)

/-- Membership in the rendered tree segment, characterized by kept
descent chains. -/
theorem treeNodes_iff_chain (root N : Node) :
    N ∈ treeNodes root ↔
      ∃ ch, ChainTo root.children ch N ∧ ∀ a ∈ ch, keep a = true := by
  rw [treeNodes]
  exact visitedList_chain_aux root.children (fun c _ => mem_visited_iff_chain c) N

theorem wfLoadedList_forall (cs : List Node) (h : wfLoadedList cs = true) :
    ∀ c ∈ cs, wfLoaded c = true := by
  induction cs with
  | nil => simp
  | cons c rest ih =>
    simp only [wfLoadedList_cons, Bool.and_eq_true] at h
    intro x hx
    rcases List.mem_cons.mp hx with rfl | hx
    · exact h.1
    · exact ih h.2 x hx

theorem wfLoaded_children (n : Node) (h : wfLoaded n = true) :
    ∀ c ∈ n.children, wfLoaded c = true := by
  cases n with
  | mk p d e s l cs =>
    simp only [wfLoaded_mk, Bool.and_eq_true] at h
    simpa using wfLoadedList_forall cs h.2

theorem loadedNodes_subset_of_child (a c : Node) (hwf : wfLoaded a = true)
    (hc : c ∈ a.children) : ∀ x ∈ loadedNodes c, x ∈ loadedNodes a := by
  intro x hx
  cases a with
  | mk p d e s l cs =>
    simp only [Node.children_mk] at hc
    simp only [wfLoaded_mk, Bool.and_eq_true] at hwf
    have hl : l = true := by
      cases cs with
      | nil => simp at hc
      | cons a' rest =>
        have := hwf.1
        simp [List.isEmpty] at this
        exact this
    subst hl
    simp only [loadedNodes_mk, if_pos, List.mem_cons]
    exact Or.inr ((mem_loadedNodesList x cs).mpr ⟨c, hc, hx⟩)

theorem chain_wfLoaded : ∀ {cs ch : List Node} {N : Node}, ChainTo cs ch N →
    (∀ c ∈ cs, wfLoaded c = true) → ∀ a ∈ ch, wfLoaded a = true := by
  intro cs ch N h
  induction h with
  | last hm =>
    intro hwf a ha
    rcases List.mem_singleton.mp ha with rfl
    exact hwf _ hm
  | cons hm _ ih =>
    intro hwf a ha
    rcases List.mem_cons.mp ha with rfl | ha
    · exact hwf _ hm
    · exact ih (wfLoaded_children _ (hwf _ hm)) a ha

theorem chain_loaded_mem {m : Node} : ∀ {cs ch : List Node} {N : Node}, ChainTo cs ch N →
    (∀ a ∈ ch, wfLoaded a = true) → m ∈ loadedNodes N → ∀ a ∈ ch, m ∈ loadedNodes a := by
  intro cs ch N h
  induction h with
  | last _ =>
    intro _ hm' a ha
    rcases List.mem_singleton.mp ha with rfl
    exact hm'
  | cons hm hch ih =>
    intro hwf hm' a ha
    rcases List.mem_cons.mp ha with rfl | ha
    · obtain ⟨c₀, rest, rfl, hc₀⟩ := hch.head_mem
      have h₀ : m ∈ loadedNodes c₀ :=
        ih (fun x hx => hwf x (by simp [hx])) hm' c₀ (by simp)
      exact loadedNodes_subset_of_child a c₀ (hwf a (by simp)) hc₀ m h₀
    · exact ih (fun x hx => hwf x (by simp [hx])) hm' a ha

/-! ### Name occurrence in the rendered tree string -/

theorem string_data_append (a b : String) : (a ++ b).data = a.data ++ b.data := rfl

theorem isInfix_append_left {x l r : List Char} (h : x <:+: l) : x <:+: l ++ r := by
  obtain ⟨s, t, hst⟩ := h
  exact ⟨s, t ++ r, by rw [← hst]; simp⟩

theorem isInfix_append_right {x l r : List Char} (h : x <:+: r) : x <:+: l ++ r := by
  obtain ⟨s, t, hst⟩ := h
  exact ⟨l ++ s, t, by rw [← hst]; simp⟩

theorem name_infix_genTreeList :
    ∀ (cs : List Node) (pre : String) (M : Node),
      (∀ c ∈ cs, ∀ (pre' : String) (isLast : Bool),
        M ∈ visited c → (baseName M.path).data <:+: (generateTreeRec c pre' isLast).data) →
      M ∈ visitedList cs →
      (baseName M.path).data <:+: (genTreeList cs pre).data := by
  intro cs
  induction cs with
  | nil =>
    intro pre M _ hm
    simp at hm
  | cons c rest ih =>
    intro pre M h hm
    rw [visitedList_cons, List.mem_append] at hm
    cases rest with
    | nil =>
      rw [genTreeList_single]
      rcases hm with hm | hm
      · exact h c (by simp) pre true hm
      · simp at hm
    | cons c' rest' =>
      rw [genTreeList_cons2, string_data_append]
      rcases hm with hm | hm
      · exact isInfix_append_left (h c (by simp) pre false hm)
      · exact isInfix_append_right (ih pre M (fun x hx => h x (by simp [hx])) hm)

theorem name_infix_genTreeRec :
    ∀ (n : Node) (pre : String) (isLast : Bool) (M : Node), M ∈ visited n →
      (baseName M.path).data <:+: (generateTreeRec n pre isLast).data := by
  intro n
  induction n using Node.recOn' with
  | h p d e s l cs ih =>
    intro pre isLast M hm
    rw [generateTreeRec_eq, string_data_append]
    rw [visited_mk, List.mem_cons] at hm
    rcases hm with rfl | hm
    · apply isInfix_append_left
      cases isLast with
      | true =>
        simp only [if_pos]
        exact ⟨(pre ++ "└── ").data, "\n".data, by simp [string_data_append]⟩
      | false =>
        simp only [Bool.false_eq_true, if_neg, if_false]
        exact ⟨(pre ++ "├── ").data, "\n".data, by simp [string_data_append]⟩
    · apply isInfix_append_right
      apply name_infix_genTreeList _ _ M
      · intro c hc pre' isLast' hmc
        exact ih c (List.mem_of_mem_filter hc) pre' isLast' M hmc
      · simpa using hm

/-! ### Claim C1: membership in the pruned tree segment -/

/-- C1 (amended): a node appears in the tree segment exactly when some
descent chain from the root's children reaches it with every link kept,
where a node is kept iff it is selected or its loaded subtree contains a
selected **non-directory**.  Consequently (i) a node whose subtree holds
no selected node never appears, and (ii) in a well-formed tree, a node
reachable from the root always appears once its loaded subtree contains
a selected non-directory — even if the node itself is unselected; and
every rendered node's name occurs in the tree-segment string. -/
theorem c1_pruned_tree (root N : Node) :
    (N ∈ treeNodes root ↔
      ∃ ch, ChainTo root.children ch N ∧ ∀ a ∈ ch, keep a = true)
    ∧ ((∀ m ∈ N.allNodes, m.selected = false) → N ∉ treeNodes root)
    ∧ (wfLoaded root = true → ∀ ch, ChainTo root.children ch N →
        (∃ m ∈ loadedNodes N, fileSel m = true) → N ∈ treeNodes root)
    ∧ (∀ M ∈ treeNodes root, (baseName M.path).data <:+: (generateFileTree root).data) := by
  refine ⟨treeNodes_iff_chain root N, ?_, ?_, ?_⟩
  · intro hzero hmem
    obtain ⟨ch, hch, hkeep⟩ := (treeNodes_iff_chain root N).mp hmem
    have hkN := hkeep N hch.target_mem
    have h1 : N.selected = false := hzero N (Node.self_mem_allNodes N)
    have h2 : hasSelected N = false := by
      rw [hasSelected_eq_any]
      rw [List.any_eq_false]
      intro x hx
      have := hzero x (loadedNodes_subset_allNodes N x hx)
      simp [fileSel, this]
    rw [keep, h1, h2] at hkN
    simp at hkN
  · intro hwf ch hch hm
    rw [treeNodes_iff_chain]
    refine ⟨ch, hch, ?_⟩
    obtain ⟨m, hmem, hsel⟩ := hm
    have hwfc := chain_wfLoaded hch (wfLoaded_children root hwf)
    have hload := chain_loaded_mem hch hwfc hmem
    intro a ha
    have hsa : hasSelected a = true := by
      rw [hasSelected_eq_any]
      exact List.any_eq_true.mpr ⟨m, hload a ha, hsel⟩
    simp [keep, hsa]
  · intro M hM
    rw [generateFileTree]
    rw [treeNodes] at hM
    apply name_infix_genTreeList _ _ M
    · intro c hc pre' isLast' hmc
      exact name_infix_genTreeRec c pre' isLast' M hmc
    · exact hM

/-- C1 counterexample tree: `/r` ⊇ unselected directory `/r/d` ⊇
selected empty directory `/r/d/e`. -/
def cRoot : Node :=
  .mk "/r" true true false true
    [.mk "/r/d" true false false true [.mk "/r/d/e" true false true true []]]

/-- The unselected middle directory of `cRoot`. -/
def cD : Node := .mk "/r/d" true false false true [.mk "/r/d/e" true false true true []]

/-- The selected empty directory of `cRoot`. -/
def cE : Node := .mk "/r/d/e" true false true true []

/-- Counterexample for C1 as stated: in `cRoot`, node `/r/d/e` is itself
selected, and `/r/d` has a selected descendant, yet the rendered tree
segment is empty — neither appears.  `hasSelected` counts only selected
non-directories, so a selected empty directory keeps neither itself
(below a pruned parent) nor its ancestors in the tree. -/
theorem c1_counterexample :
    cE.selected = true
    ∧ cE ∈ cD.allNodes ∧ cD ∈ cRoot.allNodes ∧ cE ≠ cD
    ∧ treeNodes cRoot = []
    ∧ cE ∉ treeNodes cRoot ∧ cD ∉ treeNodes cRoot := by
  decide

/-- C1 witness tree: `/r` ⊇ unselected directory `/r/d` ⊇ selected file
`/r/d/f`. -/
def w1Root : Node :=
  .mk "/r" true true false true
    [.mk "/r/d" true false false true [.mk "/r/d/f" false false true false []]]

/-- The unselected directory of `w1Root`, holding a selected file. -/
def w1D : Node := .mk "/r/d" true false false true [.mk "/r/d/f" false false true false []]

/-- Witness for C1 (amended): the unselected directory `/r/d` appears in
the tree segment because its loaded subtree holds the selected file
`/r/d/f`. -/
theorem c1_pruned_tree_witness : w1D ∈ treeNodes w1Root :=
  (c1_pruned_tree w1Root w1D).2.2.1 (by decide) [w1D]
    (.last (by decide))
    ⟨.mk "/r/d/f" false false true false [], by decide, by decide⟩

/-! ### Claim C7: the file-contents segment -/

theorem collectList_eq_aux (cs : List Node)
    (h : ∀ c ∈ cs, collect c = ((loadedNodes c).filter fileSel).map Node.path) :
    collectList cs = ((loadedNodesList cs).filter fileSel).map Node.path := by
  induction cs with
  | nil => simp
  | cons c rest ih =>
    rw [collectList_cons, loadedNodesList_cons, List.filter_append, List.map_append,
      h c (by simp), ih (fun x hx => h x (by simp [hx]))]

/-- `collect` lists exactly the paths of the selected non-directories of
the loaded subtree, in depth-first pre-order. -/
theorem collect_eq :
    ∀ n : Node, collect n = ((loadedNodes n).filter fileSel).map Node.path := by
  intro n
  induction n using Node.recOn' with
  | h p d e s l cs ih =>
    rw [collect_mk, loadedNodes_mk, List.filter_cons]
    cases hsd : (s && !d) with
    | true =>
      cases l with
      | true => simp [fileSel, hsd, collectList_eq_aux cs ih]
      | false => simp [fileSel, hsd]
    | false =>
      cases l with
      | true => simp [fileSel, hsd, collectList_eq_aux cs ih]
      | false => simp [fileSel, hsd]

theorem visitedList_filter_aux (cs : List Node)
    (h : ∀ c ∈ cs, wfLoaded c = true →
      (visited c).filter fileSel = (loadedNodes c).filter fileSel)
    (hwf : ∀ c ∈ cs, wfLoaded c = true) :
    (visitedList (cs.filter keep)).filter fileSel
      = (loadedNodesList cs).filter fileSel := by
  induction cs with
  | nil => simp
  | cons c rest ih =>
    rw [List.filter_cons]
    cases hk : keep c with
    | true =>
      simp only [if_pos, visitedList_cons, List.filter_append, loadedNodesList_cons]
      rw [h c (by simp) (hwf c (by simp)),
        ih (fun x hx => h x (by simp [hx])) (fun x hx => hwf x (by simp [hx]))]
    | false =>
      have hsel : hasSelected c = false := by
        rw [keep] at hk
        exact (Bool.or_eq_false_iff.mp hk).2
      have hnone : (loadedNodes c).filter fileSel = [] := by
        rw [List.filter_eq_nil_iff]
        intro x hx
        rw [hasSelected_eq_any, List.any_eq_false] at hsel
        simpa using hsel x hx
      simp only [Bool.false_eq_true, if_neg, if_false, loadedNodesList_cons,
        List.filter_append, hnone, List.nil_append]
      exact ih (fun x hx => h x (by simp [hx])) (fun x hx => hwf x (by simp [hx]))

/-- In a well-formed tree, the selected files among the rendered tree
nodes are exactly — value and order — the selected files of the loaded
subtree. -/
theorem visited_filter_fileSel :
    ∀ n : Node, wfLoaded n = true →
      (visited n).filter fileSel = (loadedNodes n).filter fileSel := by
  intro n
  induction n using Node.recOn' with
  | h p d e s l cs ih =>
    intro hwf
    simp only [wfLoaded_mk, Bool.and_eq_true] at hwf
    have hall := wfLoadedList_forall cs hwf.2
    cases l with
    | true =>
      rw [visited_mk, loadedNodes_mk, if_pos rfl, List.filter_cons, List.filter_cons,
        visitedList_filter_aux cs ih hall]
    | false =>
      have hcs : cs = [] := by
        cases cs with
        | nil => rfl
        | cons a rest =>
          have := hwf.1
          simp [List.isEmpty] at this
      subst hcs
      simp

/-- C7: the file-contents segment of the rendered document consists of
exactly one block per selected non-directory of the loaded tree, in the
same depth-first order in which the tree segment visits them, and each
block carries the file's path and (for a readable, NUL-free file) its
full byte content. -/
theorem c7_file_contents (fsf : FileFS) (root : Node) (txt : String)
    (hwf : wfLoaded root = true) (hdir : root.isDir = true) :
    collect root = ((loadedNodes root).filter fileSel).map Node.path
    ∧ ((treeNodes root).filter fileSel).map Node.path = collect root
    ∧ generatePrompt fsf root txt
        = "<file_tree>\n" ++ generateFileTree root ++ "</file_tree>\n"
          ++ concatStrings ((collect root).map (fileEntry fsf))
          ++ ("<user_request>\n" ++ txt ++ "\n</user_request>")
    ∧ (∀ p b, fsf p = some b → containsNul b = false →
        fileEntry fsf p = "<file>\n<file_path>" ++ p ++ "</file_path>\n<file_content>\n"
          ++ b ++ "\n</file_content>\n</file>\n") := by
  refine ⟨collect_eq root, ?_, rfl, ?_⟩
  · rw [collect_eq root, treeNodes]
    cases root with
    | mk p d e s l cs =>
      simp only [Node.isDir_mk] at hdir
      subst hdir
      simp only [wfLoaded_mk, Bool.and_eq_true] at hwf
      have hall := wfLoadedList_forall cs hwf.2
      rw [Node.children_mk, loadedNodes_mk, List.filter_cons]
      have hfs : fileSel (Node.mk p true e s l []) = false := by simp [fileSel]
      cases l with
      | true =>
        have hfs2 : fileSel (Node.mk p true e s true cs) = false := by simp [fileSel]
        rw [hfs2]
        simp only [Bool.false_eq_true, if_neg, if_false]
        rw [visitedList_filter_aux cs (fun c _ => visited_filter_fileSel c) hall]
        simp
      | false =>
        have hcs : cs = [] := by
          cases cs with
          | nil => rfl
          | cons a rest =>
            have := hwf.1
            simp [List.isEmpty] at this
        subst hcs
        simp [fileSel]
  · intro p b hb hnul
    simp [fileEntry, contentFor, hb, hnul]

/-- The directory `/p/a` selected wholesale (the toggle cascades onto
both files). -/
def w7a : Node :=
  Node.toggleSelect true
    (.mk "/p/a" true true false true
      [.mk "/p/a/x" false false false false [], .mk "/p/a/y" false false false false []])

/-- C7 witness root. -/
def w7Root : Node := .mk "/p" true true false true [w7a]

/-- A file oracle for the C7 witness. -/
def fsf7 : FileFS := fun p =>
  if p = "/p/a/x" then some "hi" else if p = "/p/a/y" then some "yo" else none

/-- Witness for C7: after selecting directory `/p/a` wholesale, both
files under it appear individually in the file-contents segment, in
tree-segment order. -/
theorem c7_file_contents_witness :
    wfLoaded w7Root = true
    ∧ collect w7Root = ((loadedNodes w7Root).filter fileSel).map Node.path
    ∧ ((treeNodes w7Root).filter fileSel).map Node.path = collect w7Root
    ∧ collect w7Root = ["/p/a/x", "/p/a/y"] :=
  ⟨by decide, (c7_file_contents fsf7 w7Root "task" (by decide) rfl).1,
    (c7_file_contents fsf7 w7Root "task" (by decide) rfl).2.1, by decide⟩

/-! ### Claim C3: binary/unreadable substitution -/

theorem containsNul_append (a b : String) :
    containsNul (a ++ b) = (containsNul a || containsNul b) := by
  simp [containsNul, string_data_append]

theorem contentFor_bad (fs : FileFS) (p : String)
    (h : fs p = none ∨ ∃ b, fs p = some b ∧ containsNul b = true) :
    contentFor fs p = "[Binary file]" := by
  rcases h with h | ⟨b, hb, hnul⟩
  · simp [contentFor, h]
  · simp [contentFor, hb, hnul]

/-- Whatever the oracle answers, the emitted content never holds a NUL
byte: unreadable or NUL-containing files are replaced by the literal
placeholder. -/
theorem contentFor_nul_free (fs : FileFS) (p : String) :
    containsNul (contentFor fs p) = false := by
  cases h : fs p with
  | none =>
    rw [contentFor_bad fs p (Or.inl h)]
    decide
  | some b =>
    cases hb : containsNul b with
    | true =>
      rw [contentFor_bad fs p (Or.inr ⟨b, h, hb⟩)]
      decide
    | false =>
      have hc : contentFor fs p = b := by simp [contentFor, h, hb]
      rw [hc]
      exact hb

theorem concatStrings_nil : concatStrings [] = "" := rfl

theorem concatStrings_cons (s : String) (rest : List String) :
    concatStrings (s :: rest) = s ++ concatStrings rest := rfl

theorem infix_concat_of_mem (f : String → String) :
    ∀ (l : List String) (p : String), p ∈ l →
      (f p).data <:+: (concatStrings (l.map f)).data := by
  intro l
  induction l with
  | nil => intro p hp; simp at hp
  | cons q rest ih =>
    intro p hp
    rw [List.map_cons, concatStrings_cons, string_data_append]
    rcases List.mem_cons.mp hp with rfl | hp
    · exact isInfix_append_left ⟨[], [], by simp⟩
    · exact isInfix_append_right (ih p hp)

theorem contentFor_infix_fileEntry (fs : FileFS) (p : String) :
    (contentFor fs p).data <:+: (fileEntry fs p).data := by
  rw [fileEntry]
  exact ⟨("<file>\n<file_path>" ++ p ++ "</file_path>\n<file_content>\n").data,
    "\n</file_content>\n</file>\n".data, by simp [string_data_append]⟩

theorem pathMarker_infix_fileEntry (fs : FileFS) (p : String) :
    ("<file_path>" ++ p ++ "</file_path>").data <:+: (fileEntry fs p).data := by
  refine ⟨"<file>\n".data,
    "\n<file_content>\n".data ++ (contentFor fs p).data
      ++ "\n</file_content>\n</file>\n".data, ?_⟩
  simp only [fileEntry, string_data_append, List.append_assoc, List.cons_append,
    List.nil_append]

theorem containsNul_baseName (p : String) (h : containsNul p = false) :
    containsNul (baseName p) = false := by
  rw [containsNul, List.any_eq_false] at h ⊢
  intro c hc
  apply h
  rw [baseName] at hc
  rw [List.mem_reverse] at hc
  have h1 : c ∈ p.data.reverse := (List.takeWhile_sublist _).subset hc
  exact List.mem_reverse.mp h1

theorem genTreeList_nul_free :
    ∀ (cs : List Node) (pre : String),
      (∀ c ∈ cs, ∀ (pre' : String) (isLast : Bool), containsNul pre' = false →
        containsNul (generateTreeRec c pre' isLast) = false) →
      containsNul pre = false →
      containsNul (genTreeList cs pre) = false := by
  intro cs
  induction cs with
  | nil =>
    intro pre _ _
    rw [genTreeList_nil]
    decide
  | cons c rest ih =>
    intro pre h hpre
    cases rest with
    | nil =>
      rw [genTreeList_single]
      exact h c (by simp) pre true hpre
    | cons c' rest' =>
      rw [genTreeList_cons2, containsNul_append,
        h c (by simp) pre false hpre,
        ih pre (fun x hx => h x (by simp [hx])) hpre]
      decide

theorem allNodes_child_subset (root c : Node) (hc : c ∈ root.children) :
    ∀ m ∈ c.allNodes, m ∈ root.allNodes := by
  cases root with
  | mk p d e s l cs =>
    simp only [Node.children_mk] at hc
    intro m hm
    simp only [Node.allNodes_mk, List.mem_cons]
    exact Or.inr ((Node.mem_allNodesList m cs).mpr ⟨c, hc, hm⟩)

theorem genTreeRec_nul_free :
    ∀ n : Node, (∀ m ∈ n.allNodes, containsNul m.path = false) →
      ∀ (pre : String) (isLast : Bool), containsNul pre = false →
        containsNul (generateTreeRec n pre isLast) = false := by
  intro n
  induction n using Node.recOn' with
  | h p d e s l cs ih =>
    intro hpaths pre isLast hpre
    have l1 : containsNul "└── " = false := by decide
    have l2 : containsNul "├── " = false := by decide
    have l3 : containsNul "\n" = false := by decide
    have l4 : containsNul "    " = false := by decide
    have l5 : containsNul "│   " = false := by decide
    have hname : containsNul (baseName p) = false :=
      containsNul_baseName p (hpaths _ (Node.self_mem_allNodes _))
    have hchild : ∀ pre2 : String, containsNul pre2 = false →
        containsNul (genTreeList (cs.filter keep) pre2) = false := by
      intro pre2 hpre2
      apply genTreeList_nul_free _ _ _ hpre2
      intro c hcmem pre' isLast' hpre'
      have hcc : c ∈ cs := List.mem_of_mem_filter hcmem
      apply ih c hcc _ pre' isLast' hpre'
      intro m hm
      exact hpaths m (allNodes_child_subset (Node.mk p d e s l cs) c (by simpa) m hm)
    rw [generateTreeRec_eq, containsNul_append]
    cases isLast with
    | true =>
      have ht := hchild (pre ++ "    ") (by rw [containsNul_append, hpre, l4]; decide)
      simp [containsNul_append, hpre, hname, l1, l3, ht]
    | false =>
      have ht := hchild (pre ++ "│   ") (by rw [containsNul_append, hpre, l5]; decide)
      simp [containsNul_append, hpre, hname, l2, l3, ht]

theorem collect_paths_mem (root : Node) (p : String) (hp : p ∈ collect root) :
    ∃ m ∈ root.allNodes, m.path = p := by
  rw [collect_eq] at hp
  simp only [List.mem_map, List.mem_filter] at hp
  obtain ⟨m, ⟨hm, _⟩, rfl⟩ := hp
  exact ⟨m, loadedNodes_subset_allNodes root m hm, rfl⟩

theorem concatStrings_nul_free :
    ∀ l : List String, (∀ s ∈ l, containsNul s = false) →
      containsNul (concatStrings l) = false := by
  intro l
  induction l with
  | nil =>
    intro _
    decide
  | cons s rest ih =>
    intro h
    rw [concatStrings_cons, containsNul_append, h s (by simp),
      ih (fun x hx => h x (by simp [hx]))]
    rfl

theorem fileEntry_nul_free (fs : FileFS) (p : String) (hp : containsNul p = false) :
    containsNul (fileEntry fs p) = false := by
  have h1 : containsNul "<file>\n<file_path>" = false := by decide
  have h2 : containsNul "</file_path>\n<file_content>\n" = false := by decide
  have h3 : containsNul "\n</file_content>\n</file>\n" = false := by decide
  rw [fileEntry]
  simp [containsNul_append, h1, h2, h3, hp, contentFor_nul_free]

theorem generatePrompt_nul_free (fs : FileFS) (root : Node) (txt : String)
    (hpaths : ∀ m ∈ root.allNodes, containsNul m.path = false)
    (htxt : containsNul txt = false) :
    containsNul (generatePrompt fs root txt) = false := by
  have h1 : containsNul "<file_tree>\n" = false := by decide
  have h2 : containsNul "</file_tree>\n" = false := by decide
  have h3 : containsNul "<user_request>\n" = false := by decide
  have h4 : containsNul "\n</user_request>" = false := by decide
  have htree : containsNul (generateFileTree root) = false := by
    rw [generateFileTree]
    apply genTreeList_nul_free _ _ _ (by decide)
    intro c hcmem pre' isLast' hpre'
    apply genTreeRec_nul_free c _ pre' isLast' hpre'
    intro m hm
    exact hpaths m (allNodes_child_subset root c (List.mem_of_mem_filter hcmem) m hm)
  have hentries : containsNul (concatStrings ((collect root).map (fileEntry fs))) = false := by
    apply concatStrings_nul_free
    intro s hs
    obtain ⟨q, hq, rfl⟩ := List.mem_map.mp hs
    obtain ⟨m, hmem, rfl⟩ := collect_paths_mem root q hq
    exact fileEntry_nul_free fs m.path (hpaths m hmem)
  rw [generatePrompt]
  simp [containsNul_append, h1, h2, h3, h4, htree, hentries, htxt]

theorem pathMarker_infix_doc (fs : FileFS) (root : Node) (txt q : String)
    (hq : q ∈ collect root) :
    ("<file_path>" ++ q ++ "</file_path>").data <:+: (generatePrompt fs root txt).data := by
  have h1 := pathMarker_infix_fileEntry fs q
  have h2 := infix_concat_of_mem (fileEntry fs) (collect root) q hq
  rw [generatePrompt, string_data_append, string_data_append]
  exact isInfix_append_left (isInfix_append_right (h1.trans h2))

/-! ### Claim C3 -/

/-- C3: for a selected file whose read fails or whose bytes contain NUL,
the document carries the literal `[Binary file]` placeholder in place of
the content; the emitted content is NUL-free for every file (and the
whole document is NUL-free when the tree's paths and the user text are),
and a per-file failure aborts nothing — every collected file still gets
its `<file_path>` block in the document. -/
theorem c3_binary_substitution (fsf : FileFS) (root : Node) (txt p : String)
    (hp : p ∈ collect root)
    (hbad : fsf p = none ∨ ∃ b, fsf p = some b ∧ containsNul b = true) :
    contentFor fsf p = "[Binary file]"
    ∧ ("[Binary file]".data <:+: (generatePrompt fsf root txt).data)
    ∧ (∀ q ∈ collect root,
        ("<file_path>" ++ q ++ "</file_path>").data <:+: (generatePrompt fsf root txt).data)
    ∧ ((∀ m ∈ root.allNodes, containsNul m.path = false) → containsNul txt = false →
        containsNul (generatePrompt fsf root txt) = false) := by
  refine ⟨contentFor_bad fsf p hbad, ?_, ?_, ?_⟩
  · have h1 : ("[Binary file]").data <:+: (fileEntry fsf p).data := by
      rw [← contentFor_bad fsf p hbad]
      exact contentFor_infix_fileEntry fsf p
    have h2 := infix_concat_of_mem (fileEntry fsf) (collect root) p hp
    rw [generatePrompt, string_data_append, string_data_append]
    exact isInfix_append_left (isInfix_append_right (h1.trans h2))
  · intro q hq
    exact pathMarker_infix_doc fsf root txt q hq
  · intro hpaths htxt
    exact generatePrompt_nul_free fsf root txt hpaths htxt

/-- C3 witness tree: a single selected file `/p/bin`. -/
def w3Root : Node := .mk "/p" true true false true [.mk "/p/bin" false false true false []]

/-- A file oracle whose only file contains a NUL byte. -/
def fsf3 : FileFS := fun q =>
  if q = "/p/bin" then some (String.mk [nulChar, 'a']) else none

/-- Witness for C3: the NUL-containing selected file `/p/bin` is
rendered as the literal placeholder. -/
theorem c3_binary_substitution_witness :
    contentFor fsf3 "/p/bin" = "[Binary file]"
    ∧ ("[Binary file]".data <:+: (generatePrompt fsf3 w3Root "task").data) :=
  ⟨(c3_binary_substitution fsf3 w3Root "task" "/p/bin" (by decide)
      (Or.inr ⟨String.mk [nulChar, 'a'], by decide, by decide⟩)).1,
    (c3_binary_substitution fsf3 w3Root "task" "/p/bin" (by decide)
      (Or.inr ⟨String.mk [nulChar, 'a'], by decide, by decide⟩)).2.1⟩

/-! ### Claim C9: `expanded` only on directories, in every reachable state -/

theorem invEDList_forall (cs : List Node) (h : invEDList cs = true) :
    ∀ c ∈ cs, invED c = true := by
  induction cs with
  | nil => simp
  | cons c rest ih =>
    simp only [invEDList_cons, Bool.and_eq_true] at h
    intro x hx
    rcases List.mem_cons.mp hx with rfl | hx
    · exact h.1
    · exact ih h.2 x hx

theorem invED_mem_aux (cs : List Node)
    (h : ∀ c ∈ cs, invED c = true → ∀ m ∈ c.allNodes, (!m.expanded || m.isDir) = true)
    (hcs : invEDList cs = true) :
    ∀ m ∈ Node.allNodesList cs, (!m.expanded || m.isDir) = true := by
  intro m hm
  obtain ⟨c, hc, hmc⟩ := (Node.mem_allNodesList m cs).mp hm
  exact h c hc (invEDList_forall cs hcs c hc) m hmc

theorem invED_mem :
    ∀ n : Node, invED n = true → ∀ m ∈ n.allNodes, (!m.expanded || m.isDir) = true := by
  intro n
  induction n using Node.recOn' with
  | h p d e s l cs ih =>
    intro hinv m hm
    rw [invED_mk, Bool.and_eq_true] at hinv
    rcases List.mem_cons.mp hm with rfl | hm
    · simpa using hinv.1
    · exact invED_mem_aux cs ih hinv.2 m hm

theorem invED_eraseSel : ∀ n : Node, invED n.eraseSel = invED n := by
  intro n
  induction n using Node.recOn' with
  | h p d e s l cs ih =>
    rw [Node.eraseSel_mk, invED_mk, invED_mk]
    have : invEDList (Node.eraseSelList cs) = invEDList cs := by
      induction cs with
      | nil => simp
      | cons c rest ihl =>
        rw [Node.eraseSelList_cons, invEDList_cons, invEDList_cons,
          ih c (by simp), ihl (fun x hx => ih x (by simp [hx]))]
    rw [this]

theorem invED_toggleSelect (v : Bool) (n : Node) :
    invED (n.toggleSelect v) = invED n := by
  rw [← invED_eraseSel (n.toggleSelect v), Node.eraseSel_toggleSelect, invED_eraseSel]

theorem invEDList_fresh (path : String) (entries : List (String × Bool)) :
    invEDList (entries.map
      (fun en => Node.mk (joinPath path en.1) en.2 false false false [])) = true := by
  induction entries with
  | nil => simp
  | cons en rest ih => simp [ih]

theorem invED_loadChildren (fsd : DirFS) (n : Node) (h : invED n = true) :
    invED (loadChildren fsd n) = true := by
  rw [loadChildren]
  cases hfs : fsd n.path with
  | none => exact h
  | some entries =>
    cases n with
    | mk p d e s l cs =>
      rw [invED_mk, Bool.and_eq_true] at h
      simp only [Node.path_mk, Node.isDir_mk, Node.expanded_mk, Node.selected_mk]
      rw [invED_mk, Bool.and_eq_true]
      exact ⟨h.1, invEDList_fresh p entries⟩

theorem invED_expandToggle (fsd : DirFS) (n : Node) (h : invED n = true) :
    invED (expandToggle fsd n) = true := by
  rw [expandToggle]
  cases hd : n.isDir with
  | false => simpa [hd] using h
  | true =>
    simp only [hd, if_pos]
    cases n with
    | mk p d e s l cs =>
      simp only [Node.isDir_mk] at hd
      subst hd
      rw [invED_mk, Bool.and_eq_true] at h
      have hflip : invED (Node.mk p true (!e) s l cs) = true := by
        rw [invED_mk, Bool.and_eq_true]
        exact ⟨by simp, h.2⟩
      split
      · exact invED_loadChildren fsd _ hflip
      · exact hflip

theorem invEDList_applyAt_aux (q : String) (f : Node → Node) (cs : List Node)
    (h : ∀ c ∈ cs, invED c = true → invED (applyAt q f c) = true)
    (hcs : invEDList cs = true) : invEDList (applyAtList q f cs) = true := by
  induction cs with
  | nil => simp
  | cons c rest ih =>
    rw [invEDList_cons, Bool.and_eq_true] at hcs
    rw [applyAtList_cons, invEDList_cons, Bool.and_eq_true]
    exact ⟨h c (by simp) hcs.1, ih (fun x hx => h x (by simp [hx])) hcs.2⟩

theorem invED_applyAt (q : String) (f : Node → Node)
    (hf : ∀ x, invED x = true → invED (f x) = true) :
    ∀ t : Node, invED t = true → invED (applyAt q f t) = true := by
  intro t
  induction t using Node.recOn' with
  | h p d e s l cs ih =>
    intro hinv
    rw [applyAt_mk]
    by_cases hpq : p = q
    · rw [if_pos hpq]
      exact hf _ hinv
    · rw [if_neg hpq]
      rw [invED_mk, Bool.and_eq_true] at hinv
      rw [invED_mk, Bool.and_eq_true]
      exact ⟨hinv.1, invEDList_applyAt_aux q f cs ih hinv.2⟩

theorem invEDList_applyAtLoaded_aux (q : String) (f : Node → Node) (cs : List Node)
    (h : ∀ c ∈ cs, invED c = true → invED (applyAtLoaded q f c) = true)
    (hcs : invEDList cs = true) : invEDList (applyAtLoadedList q f cs) = true := by
  induction cs with
  | nil => simp
  | cons c rest ih =>
    rw [invEDList_cons, Bool.and_eq_true] at hcs
    rw [applyAtLoadedList_cons, invEDList_cons, Bool.and_eq_true]
    exact ⟨h c (by simp) hcs.1, ih (fun x hx => h x (by simp [hx])) hcs.2⟩

theorem invED_applyAtLoaded (q : String) (f : Node → Node)
    (hf : ∀ x, invED x = true → invED (f x) = true) :
    ∀ t : Node, invED t = true → invED (applyAtLoaded q f t) = true := by
  intro t
  induction t using Node.recOn' with
  | h p d e s l cs ih =>
    intro hinv
    rw [applyAtLoaded_mk]
    by_cases hpq : p = q
    · rw [if_pos hpq]
      exact hf _ hinv
    · rw [if_neg hpq]
      rw [invED_mk, Bool.and_eq_true] at hinv
      cases l with
      | true =>
        rw [if_pos rfl, invED_mk, Bool.and_eq_true]
        exact ⟨hinv.1, invEDList_applyAtLoaded_aux q f cs ih hinv.2⟩
      | false =>
        simp only [Bool.false_eq_true, if_neg, if_false]
        rw [invED_mk, Bool.and_eq_true]
        exact ⟨hinv.1, hinv.2⟩

theorem enterStep_invED (fsd : DirFS) (m : Model) (h : invED m.tree = true) :
    invED ((enterStep fsd m).tree) = true := by
  unfold enterStep
  split
  · exact h
  · split
    · exact invED_applyAt _ _ (fun x hx => invED_expandToggle fsd x hx) m.tree h
    · exact h

theorem spaceStep_invED (m : Model) (h : invED m.tree = true) :
    invED ((spaceStep m).tree) = true := by
  unfold spaceStep
  split
  · exact h
  · split
    · exact h
    · exact invED_applyAt _ _ (fun x hx => by rw [invED_toggleSelect]; exact hx) m.tree h

theorem fsEventStep_invED (fsd : DirFS) (m : Model) (ev : FsEvent)
    (h : invED m.tree = true) : invED ((fsEventStep fsd m ev).tree) = true := by
  unfold fsEventStep
  split
  · exact h
  · split
    · exact invED_applyAtLoaded _ _ (fun x hx => invED_loadChildren fsd x hx) m.tree h
    · exact h

theorem keyStep_invED (fsd : DirFS) (fsf : FileFS) (m : Model) (k : Key)
    (h : invED m.tree = true) : invED ((keyStep fsd fsf m k).1.tree) = true := by
  rw [keyStep.eq_def]
  by_cases hk : k = Key.ctrlC ∨ k = Key.char 'q'
  · rw [if_pos hk]
    exact h
  · rw [if_neg hk]
    cases m.focus with
    | fileTreeView =>
      cases hsf : m.settingFilter with
      | true => exact h
      | false =>
        cases k with
        | enter => exact enterStep_invED fsd m h
        | space => exact spaceStep_invED m h
        | tab => exact h
        | char c => exact h
        | ctrlC => exact h
        | other => exact h
    | textAreaView =>
      cases k with
      | tab => exact h
      | char c => exact h
      | space => exact h
      | enter => exact h
      | ctrlC => exact h
      | other => exact h
    | acceptView =>
      cases k with
      | tab => exact h
      | enter => exact h
      | char c => exact h
      | space => exact h
      | ctrlC => exact h
      | other => exact h

theorem msgStep_invED (fsd : DirFS) (fsf : FileFS) (m : Model) (msg : Msg)
    (h : invED m.tree = true) : invED ((msgStep fsd fsf m msg).1.tree) = true := by
  cases msg with
  | key k => exact keyStep_invED fsd fsf m k h
  | fsEvent ev => exact fsEventStep_invED fsd m ev h
  | fsErr => exact h
  | setCursor i => exact h
  | setFilter b => exact h

theorem runMsgs_invED (fsd : DirFS) (fsf : FileFS) :
    ∀ (msgs : List Msg) (m : Model), invED m.tree = true →
      invED ((runMsgs fsd fsf m msgs).1.tree) = true := by
  intro msgs
  induction msgs with
  | nil => intro m h; exact h
  | cons msg rest ih =>
    intro m h
    rw [runMsgs]
    have hstep := msgStep_invED fsd fsf m msg h
    cases hs : msgStep fsd fsf m msg with
    | mk m' qf =>
      rw [hs] at hstep
      cases qf with
      | true => exact hstep
      | false => exact ih m' hstep

theorem initModel_invED (fsd : DirFS) (path : String) :
    invED ((initModel fsd path).tree) = true := by
  apply invED_loadChildren
  simp

/-- C9: in every session state reachable from startup by any sequence
of messages (keys, filesystem events, widget updates), `expanded = true`
holds only on directory nodes; consequently `flatten`, which tests only
the `expanded` flag, emits exactly one entry for every file node and
never descends below one. -/
theorem c9_expanded_only_dirs (fsd : DirFS) (fsf : FileFS) (path : String)
    (msgs : List Msg) :
    invED ((runMsgs fsd fsf (initModel fsd path) msgs).1.tree) = true
    ∧ (∀ n ∈ ((runMsgs fsd fsf (initModel fsd path) msgs).1.tree).allNodes,
        n.isDir = false → ∀ dep, flattenRec n dep = [(n, dep)]) := by
  have hinv := runMsgs_invED fsd fsf msgs (initModel fsd path) (initModel_invED fsd path)
  refine ⟨hinv, ?_⟩
  intro n hn hdir dep
  have hmem := invED_mem _ hinv n hn
  rw [hdir] at hmem
  have hexp : n.expanded = false := by
    cases hxe : n.expanded with
    | false => rfl
    | true => rw [hxe] at hmem; simp at hmem
  exact flattenRec_not_expanded n dep hexp

/-- The C9 witness directory oracle. -/
def fsd9 : DirFS := fun q =>
  if q = "/p" then some [("d", true)]
  else if q = "/p/d" then some [("f", false)] else none

/-- Witness for C9: after startup and an `enter` (expand + lazy load) on
the directory row, the freshly loaded file node is collapsed and
contributes exactly one flatten entry. -/
theorem c9_expanded_only_dirs_witness :
    flattenRec (Node.mk "/p/d/f" false false false false []) 0
      = [(Node.mk "/p/d/f" false false false false [], 0)] :=
  (c9_expanded_only_dirs fsd9 fsfNone "/p" [Msg.key Key.enter]).2
    (Node.mk "/p/d/f" false false false false []) (by decide) rfl 0

/-! ### Step lemmas for the session claims (C8, C10) -/

theorem string_data_push (s : String) (c : Char) : (s.push c).data = s.data ++ [c] := rfl

theorem enterStep_text (fsd : DirFS) (m : Model) : (enterStep fsd m).text = m.text := by
  unfold enterStep
  split
  · rfl
  · split
    · rfl
    · rfl

theorem spaceStep_text (m : Model) : (spaceStep m).text = m.text := by
  unfold spaceStep
  split
  · rfl
  · split
    · rfl
    · rfl

theorem fsEventStep_text (fsd : DirFS) (m : Model) (ev : FsEvent) :
    (fsEventStep fsd m ev).text = m.text := by
  unfold fsEventStep
  split
  · rfl
  · split
    · rfl
    · rfl

theorem enterStep_prompt (fsd : DirFS) (m : Model) : (enterStep fsd m).prompt = m.prompt := by
  unfold enterStep
  split
  · rfl
  · split
    · rfl
    · rfl

theorem spaceStep_prompt (m : Model) : (spaceStep m).prompt = m.prompt := by
  unfold spaceStep
  split
  · rfl
  · split
    · rfl
    · rfl

theorem fsEventStep_prompt (fsd : DirFS) (m : Model) (ev : FsEvent) :
    (fsEventStep fsd m ev).prompt = m.prompt := by
  unfold fsEventStep
  split
  · rfl
  · split
    · rfl
    · rfl

/-- Every `Update` step either leaves the user-request text unchanged or
appends one character that is not `q` (the `q` key is intercepted as
quit before the textarea ever sees it). -/
theorem msgStep_text (fsd : DirFS) (fsf : FileFS) (m : Model) (msg : Msg) :
    (msgStep fsd fsf m msg).1.text = m.text
    ∨ ∃ c : Char, c ≠ 'q' ∧ (msgStep fsd fsf m msg).1.text = m.text.push c := by
  cases msg with
  | fsEvent ev => exact Or.inl (fsEventStep_text fsd m ev)
  | fsErr => exact Or.inl rfl
  | setCursor i => exact Or.inl rfl
  | setFilter b => exact Or.inl rfl
  | key k =>
    simp only [msgStep]
    rw [keyStep.eq_def]
    by_cases hk : k = Key.ctrlC ∨ k = Key.char 'q'
    · rw [if_pos hk]
      exact Or.inl rfl
    · rw [if_neg hk]
      cases m.focus with
      | fileTreeView =>
        by_cases hsf : m.settingFilter = true
        · rw [if_pos hsf]
          exact Or.inl rfl
        · rw [if_neg hsf]
          cases k with
          | enter => exact Or.inl (enterStep_text fsd m)
          | space => exact Or.inl (spaceStep_text m)
          | tab => exact Or.inl rfl
          | char c => exact Or.inl rfl
          | ctrlC => exact Or.inl rfl
          | other => exact Or.inl rfl
      | textAreaView =>
        cases k with
        | tab => exact Or.inl rfl
        | char c =>
          by_cases hf : m.taFocused = true
          · refine Or.inr ⟨c, ?_, ?_⟩
            · intro hc
              exact hk (Or.inr (by rw [hc]))
            · simp [textareaUpdate, hf]
          · exact Or.inl (by simp [textareaUpdate, hf])
        | space =>
          by_cases hf : m.taFocused = true
          · exact Or.inr ⟨' ', by decide, by simp [textareaUpdate, hf]⟩
          · exact Or.inl (by simp [textareaUpdate, hf])
        | enter =>
          by_cases hf : m.taFocused = true
          · exact Or.inr ⟨'\n', by decide, by simp [textareaUpdate, hf]⟩
          · exact Or.inl (by simp [textareaUpdate, hf])
        | ctrlC => exact Or.inl rfl
        | other => exact Or.inl rfl
      | acceptView =>
        cases k with
        | enter => exact Or.inl rfl
        | tab => exact Or.inl rfl
        | char c => exact Or.inl rfl
        | space => exact Or.inl rfl
        | ctrlC => exact Or.inl rfl
        | other => exact Or.inl rfl

theorem runMsgs_text_q_free (fsd : DirFS) (fsf : FileFS) :
    ∀ (msgs : List Msg) (m : Model), 'q' ∉ m.text.data →
      'q' ∉ ((runMsgs fsd fsf m msgs).1.text).data := by
  intro msgs
  induction msgs with
  | nil =>
    intro m h
    rw [runMsgs]
    exact h
  | cons msg rest ih =>
    intro m h
    rw [runMsgs]
    cases hs : msgStep fsd fsf m msg with
    | mk m' qf =>
      have hstep := msgStep_text fsd fsf m msg
      rw [hs] at hstep
      have hq : 'q' ∉ m'.text.data := by
        rcases hstep with h1 | ⟨c, hc, h2⟩
        · rw [show m'.text = m.text from h1]
          exact h
        · rw [show m'.text = m.text.push c from h2, string_data_push]
          intro hmem
          rcases List.mem_append.mp hmem with hmem | hmem
          · exact h hmem
          · exact hc (List.mem_singleton.mp hmem).symm
      cases qf with
      | true => exact hq
      | false => exact ih m' hq

/-- A step that does not quit leaves the prompt unchanged. -/
theorem msgStep_prompt (fsd : DirFS) (fsf : FileFS) (m : Model) (msg : Msg)
    (h : (msgStep fsd fsf m msg).2 = false) :
    (msgStep fsd fsf m msg).1.prompt = m.prompt := by
  cases msg with
  | fsEvent ev => exact fsEventStep_prompt fsd m ev
  | fsErr => rfl
  | setCursor i => rfl
  | setFilter b => rfl
  | key k =>
    simp only [msgStep] at h ⊢
    by_cases hk : k = Key.ctrlC ∨ k = Key.char 'q'
    · rw [keyStep.eq_def, if_pos hk] at h
      simp at h
    · rw [keyStep.eq_def, if_neg hk]
      cases hfoc : m.focus with
      | fileTreeView =>
        by_cases hsf : m.settingFilter = true
        · rw [if_pos hsf]
        · rw [if_neg hsf]
          cases k with
          | enter => exact enterStep_prompt fsd m
          | space => exact spaceStep_prompt m
          | tab => rfl
          | char c => rfl
          | ctrlC => rfl
          | other => rfl
      | textAreaView =>
        cases k with
        | tab => rfl
        | char c => rfl
        | space => rfl
        | enter => rfl
        | ctrlC => rfl
        | other => rfl
      | acceptView =>
        cases k with
        | enter =>
          rw [keyStep.eq_def, if_neg hk, hfoc] at h
          simp at h
        | tab => rfl
        | char c => rfl
        | space => rfl
        | ctrlC => rfl
        | other => rfl

theorem runMsgs_prompt (fsd : DirFS) (fsf : FileFS) :
    ∀ (msgs : List Msg) (m : Model), (runMsgs fsd fsf m msgs).2 = false →
      (runMsgs fsd fsf m msgs).1.prompt = m.prompt := by
  intro msgs
  induction msgs with
  | nil =>
    intro m _
    rw [runMsgs]
  | cons msg rest ih =>
    intro m h
    rw [runMsgs] at h ⊢
    cases hs : msgStep fsd fsf m msg with
    | mk m' qf =>
      cases qf with
      | true =>
        rw [hs] at h
        simp at h
      | false =>
        rw [hs] at h
        have h2 : (runMsgs fsd fsf m' rest).2 = false := h
        have hp : m'.prompt = m.prompt := by
          have h3 := msgStep_prompt fsd fsf m msg (by rw [hs])
          rw [hs] at h3
          exact h3
        show (runMsgs fsd fsf m' rest).1.prompt = m.prompt
        rw [ih m' h2, hp]

/-- The rendered document is never the empty string (it always starts
with the tree-segment marker), so confirming always yields an output. -/
theorem generatePrompt_ne_empty (fs : FileFS) (root : Node) (txt : String) :
    generatePrompt fs root txt ≠ "" := by
  intro h
  have h2 : (generatePrompt fs root txt).data = [] := by rw [h]
  rw [generatePrompt] at h2
  simp [string_data_append] at h2

/-! ### Claim C8: the session state machine -/

/-- C8: `tab` cycles BrowsingTree → EditingRequest → ConfirmingSubmit →
BrowsingTree (in BrowsingTree only while the list filter is not being
edited); `enter` in ConfirmingSubmit invokes the serializer, ends the
session, and the resulting document is the session's output; `q` and
`ctrl+c` quit from every state, and a session that has not confirmed
produces no document. -/
theorem c8_state_machine (fsd : DirFS) (fsf : FileFS) (m : Model) (path : String)
    (msgs : List Msg) :
    (m.focus = SessionState.fileTreeView → m.settingFilter = false →
      (keyStep fsd fsf m .tab).1.focus = SessionState.textAreaView
      ∧ (keyStep fsd fsf m .tab).2 = false)
    ∧ (m.focus = SessionState.textAreaView →
      (keyStep fsd fsf m .tab).1.focus = SessionState.acceptView
      ∧ (keyStep fsd fsf m .tab).2 = false)
    ∧ (m.focus = SessionState.acceptView →
      (keyStep fsd fsf m .tab).1.focus = SessionState.fileTreeView
      ∧ (keyStep fsd fsf m .tab).2 = false)
    ∧ (m.focus = SessionState.acceptView →
      keyStep fsd fsf m .enter
        = ({ m with prompt := generatePrompt fsf m.tree m.text }, true)
      ∧ mainOutput (keyStep fsd fsf m .enter).1
        = some (generatePrompt fsf m.tree m.text))
    ∧ (∀ k, k = Key.ctrlC ∨ k = Key.char 'q' →
        (keyStep fsd fsf m k).2 = true
        ∧ (keyStep fsd fsf m k).1.quitting = true
        ∧ (m.prompt = "" → mainOutput (keyStep fsd fsf m k).1 = none))
    ∧ ((runMsgs fsd fsf (initModel fsd path) msgs).2 = false →
        (runMsgs fsd fsf (initModel fsd path) msgs).1.prompt = "") := by
  refine ⟨?_, ?_, ?_, ?_, ?_, ?_⟩
  · intro hf hsf
    rw [keyStep.eq_def, if_neg (by decide), hf]
    rw [if_neg (by rw [hsf]; exact Bool.false_ne_true)]
    exact ⟨rfl, rfl⟩
  · intro hf
    rw [keyStep.eq_def, if_neg (by decide), hf]
    exact ⟨rfl, rfl⟩
  · intro hf
    rw [keyStep.eq_def, if_neg (by decide), hf]
    exact ⟨rfl, rfl⟩
  · intro hf
    rw [keyStep.eq_def, if_neg (by decide), hf]
    refine ⟨rfl, ?_⟩
    rw [mainOutput]
    rw [if_neg (generatePrompt_ne_empty fsf m.tree m.text)]
  · intro k hk
    rw [keyStep.eq_def, if_pos hk]
    refine ⟨rfl, rfl, ?_⟩
    intro hp
    rw [mainOutput]
    simp [hp]
  · exact runMsgs_prompt fsd fsf msgs (initModel fsd path)

/-- Witness for C8: from the fresh session (BrowsingTree, no filter),
`tab` moves focus to the request editor without quitting. -/
theorem c8_state_machine_witness :
    (keyStep fsd9 fsfNone (initModel fsd9 "/p") .tab).1.focus = SessionState.textAreaView :=
  ((c8_state_machine fsd9 fsfNone (initModel fsd9 "/p") "/p" []).1 rfl rfl).1

/-! ### Claim C10: `q` always quits, and never reaches the request text -/

/-- C10: in every session state — the textarea focused in
EditingRequest, or the list filter being typed in BrowsingTree,
included — the key `q` behaves exactly like `ctrl+c`: it immediately
quits with the quitting flag set and no document produced; and `q` is
never appended to the user-request text, so a user request typed
directly never contains the letter q. -/
theorem c10_q_always_quits (fsd : DirFS) (fsf : FileFS) (m : Model) (path : String)
    (msgs : List Msg) :
    keyStep fsd fsf m (.char 'q') = ({ m with quitting := true }, true)
    ∧ keyStep fsd fsf m .ctrlC = ({ m with quitting := true }, true)
    ∧ (m.prompt = "" → mainOutput (keyStep fsd fsf m (.char 'q')).1 = none)
    ∧ 'q' ∉ ((runMsgs fsd fsf (initModel fsd path) msgs).1.text).data := by
  refine ⟨?_, ?_, ?_, ?_⟩
  · rw [keyStep.eq_def, if_pos (Or.inr rfl)]
  · rw [keyStep.eq_def, if_pos (Or.inl rfl)]
  · intro hp
    rw [keyStep.eq_def, if_pos (Or.inr rfl), mainOutput]
    simp [hp]
  · apply runMsgs_text_q_free
    simp [initModel]

/-- Witness for C10: with an empty prompt, `q` quits with no output. -/
theorem c10_q_always_quits_witness :
    mainOutput (keyStep fsd9 fsfNone (initModel fsd9 "/p") (.char 'q')).1 = none :=
  (c10_q_always_quits fsd9 fsfNone (initModel fsd9 "/p") "/p" []).2.2.1 rfl

end CtxTui
